import Mathlib

/-!
# Verification of the alembic-bot migration-chain engine

Shallow embedding of the two source files `alembic_bot_pr.py` and
`alembic_bot_gocd.py`.  Python values relevant to the revision machinery
(`None`, `str`, `bytes`, tuples) are embedded as the inductive `PyVal`;
Python's `==` is structural equality on `PyVal`, so a `bytes` value never
equals a `str` value, exactly as in CPython.  Sets built with Python `set`
are embedded as duplicate-free lists built by insert-if-absent; the
unspecified iteration/pop order of a Python `set` is fixed to a concrete
order in each embedding and noted at the definition.
-/

namespace AlembicBot

/-- Embedding of the Python values that flow through the revision-parsing
code: `None`, `str`, `bytes` (kept as a raw character list, never decoded),
and tuples — the tuples reaching this code are `down_revision` tuples of
string literals, so the tuple payload is a list of strings.  Equality is
structural, mirroring Python `==` on these types: values of different
constructors are never equal (in particular `b"x" != "x"`). -/
inductive PyVal where
  | pynone : PyVal
  | pystr : String → PyVal
  | pybytes : List Char → PyVal
  | pytuple : List String → PyVal
  deriving Repr, DecidableEq

/-- Python truthiness for the embedded values: `None`, `""`, `b""` and `()`
are falsy, everything else truthy. -/
def PyVal.truthy : PyVal → Bool
  | .pynone => false
  | .pystr s => s != ""
  | .pybytes l => !l.isEmpty
  | .pytuple l => !l.isEmpty

/-- `\w` for a Python bytes regex: ASCII letters, digits and underscore. -/
def isWordChar (c : Char) : Bool :=
  c.isAlpha || c.isDigit || c = '_'

/-- A single or double quote, as in the character class of the fallback
patterns. -/
def isQuoteChar (c : Char) : Bool :=
  c = '\'' || c = '"'

/-- Attempt to match the fallback pattern (literal `name = ` followed by a
quote, a nonempty maximal run of word characters, and a quote) at the very
start of `cs`, returning the captured run.  Because the capture `[\w_]+` is
a maximal run of word characters, the following character is forced, so
greedy matching with backtracking degenerates to this single check. -/
def matchAssignAt (pat : List Char) (cs : List Char) : Option (List Char) :=
  if pat.isPrefixOf cs then
    match cs.drop pat.length with
    | [] => none
    | q :: rest =>
      if isQuoteChar q then
        match (rest.drop (rest.takeWhile isWordChar).length).head? with
        | some q2 =>
          if rest.takeWhile isWordChar = [] then none
          else if isQuoteChar q2 then some (rest.takeWhile isWordChar)
          else none
        | none => none
      else none
  else none

/-- Embedding of `re.search` for the fallback patterns
`rb"revision = ['\"]([\w_]+)['\"]"` and
`rb"down_revision = ['\"]([\w_]+)['\"]"`: scan start positions left to
right and return the first capture.  (`re.search` is unanchored, so the
`revision` pattern also matches inside a `down_revision = ...` line, which
this faithfully reproduces.) -/
def reSearchAssign (pat : List Char) : List Char → Option (List Char)
  | [] => matchAssignAt pat []
  | c :: rest =>
    match matchAssignAt pat (c :: rest) with
    | some r => some r
    | none => reSearchAssign pat rest

/-- The literal part of the `revision = ...` fallback pattern. -/
def revPat : List Char := "revision = ".toList

/-- The literal part of the `down_revision = ...` fallback pattern. -/
def downPat : List Char := "down_revision = ".toList

/-- Embedding of `parse_revisions_from_file` (identical in both source
files).  The structural strategy delegates to Python's `ast` module, which
we do not re-implement: its outcome is the parameter `astResult` —
`some (r, d)` when `ast.parse` succeeds and the assignment walk yields
values `r` and `d` (strings, tuples, or `None`), and `none` when `ast.parse`
raises, in which case the textual fallback runs over the raw bytes.  The
fallback returns the raw byte captures (`PyVal.pybytes`), never decoded
text, and only when both patterns match; otherwise both results stay
`None`. -/
def parse_revisions_from_file (astResult : Option (PyVal × PyVal))
    (contents : List Char) : PyVal × PyVal :=
  match astResult with
  | some r => r
  | none =>
    match reSearchAssign revPat contents, reSearchAssign downPat contents with
    | some c1, some c2 => (.pybytes c1, .pybytes c2)
    | _, _ => (.pynone, .pynone)

/-- Outcome of the per-file repair decision in `fix_alembic_revisions`
(lines 374-410 of `alembic_bot_pr.py`), for a changed file that survived
the earlier removed/non-python/not-in-an-alembic-directory filters. -/
inductive Decision where
  | skipNoParse
  | skipExistingRevision
  | skipPredecessorMissing
  | skipAlreadyConsistent
  | stale
  deriving Repr, DecidableEq

/-- Embedding of the repair decision of `fix_alembic_revisions`: skip when
parsing yielded falsy values (`if not revision or not down_revision`), when
the revision is already in the mainline history (in-place edit), when the
declared predecessor is not in the history (later link of a chain inside
the same change-request), or when the predecessor already equals the head;
otherwise the file is stale and queued for rewrite of its predecessor to
the head. -/
def classify (revision down_revision : PyVal) (history : List PyVal)
    (head : PyVal) : Decision :=
  if ¬ revision.truthy ∨ ¬ down_revision.truthy then .skipNoParse
  else if revision ∈ history then .skipExistingRevision
  else if down_revision ∉ history then .skipPredecessorMissing
  else if down_revision = head then .skipAlreadyConsistent
  else .stale

/-- Strip a single trailing newline: `$` in a Python regex (without
`re.MULTILINE`) matches at the end of the string or just before one final
newline. -/
def stripTrailingNL (cs : List Char) : List Char :=
  if cs.getLast? = some '\n' then cs.dropLast else cs

/-- Embedding of `re.search(r"^(\d{5})_(.{5})$", s)` used for the
"sequential form" of revision ids: five digits, an underscore, five
arbitrary non-newline characters.  Returns the numeric value of the digit
prefix and the five-character suffix.  (`\d` is modelled as ASCII digits;
the identifiers in this system are ASCII.) -/
def seqMatch (s : String) : Option (Nat × String) :=
  let cs := stripTrailingNL s.toList
  if cs.length = 11 ∧ (cs.take 5).all Char.isDigit ∧ cs.drop 5 ≠ [] ∧
      (cs.drop 5).head? = some '_' ∧ (cs.drop 6).all (fun c => c != '\n') then
    some ((cs.take 5).foldl (fun n c => 10 * n + (c.toNat - '0'.toNat)) 0,
      String.mk (cs.drop 6))
  else none

/-- Embedding of Python `str(n).zfill(5)` / `"{:05d}".format(n)`: decimal
digits left-padded with zeros to a minimum width of five. -/
def format05 (n : Nat) : String :=
  String.mk (List.replicate (5 - (toString n).length) '0') ++ toString n

/-- Replace every occurrence of `pat` in a character list by `rep`,
leftmost-first and non-overlapping — the semantics shared by Python
`re.sub` on a literal pattern and `str.replace`.  (An empty pattern is
returned unchanged; the ids substituted by the source are never empty.) -/
def replCharsAux (pat rep : List Char) : Nat → List Char → List Char
  | 0, l => l
  | _ + 1, [] => []
  | fuel + 1, c :: rest =>
    if pat ≠ [] ∧ pat.isPrefixOf (c :: rest) then
      rep ++ replCharsAux pat rep fuel (rest.drop (pat.length - 1))
    else
      c :: replCharsAux pat rep fuel rest

/-- Replace driver: the fuel `l.length` dominates the number of scan
steps, each of which consumes at least one character. -/
def replChars (pat rep l : List Char) : List Char :=
  replCharsAux pat rep l.length l

/-- `re.sub(old, new, s)` for a literal word-character pattern, and
equally Python `str.replace`. -/
def strReplace (s pat rep : String) : String :=
  ⟨replChars pat.toList rep.toList s.toList⟩

/-- Embedding of the per-file repair action of `update_pull_request`
(lines 244-275 of `alembic_bot_pr.py`).  First the stale predecessor id is
substituted by the mainline head id throughout the contents (`re.sub`
replaces every occurrence; the ids are word-character strings, so the
pattern is literal).  Then, exactly when the *head* id matches the
sequential form, a new id is computed from the head prefix plus one
(zero-padded to five digits) and the file's own suffix when its own id is
sequential (the head's suffix otherwise); the file is renamed by
substituting the old id with the new id in the path and the old id is
substituted by the new id throughout the new contents.  Otherwise the file
is rewritten in place.  Returns `(some newPath, newContents)` in the rename
branch and `(none, newContents)` in the in-place branch. -/
def update_file (head_revision revision down_revision filename contents :
    String) : Option String × String :=
  let contents1 := strReplace contents down_revision head_revision
  match seqMatch head_revision with
  | some (headPref, headSuf) =>
    let suffix := match seqMatch revision with
      | some (_, revSuf) => revSuf
      | none => headSuf
    let newRevisionId := format05 (headPref + 1) ++ "_" ++ suffix
    (some (strReplace filename revision newRevisionId),
      strReplace contents1 revision newRevisionId)
  | none => (none, contents1)

/-- The for/else scan of `merge_heads` over the head ids: `none` when some
head id fails the sequential form (the `break`), otherwise the maximum
numeric prefix (the loop accumulates with an initial value of 0). -/
def mergeSeqScan : List String → Nat → Option Nat
  | [], maxc => some maxc
  | r :: rs, maxc =>
    match seqMatch r with
    | none => none
    | some (n, _) => mergeSeqScan rs (if n > maxc then n else maxc)

/-- Embedding of the merge-head id synthesis of `merge_heads` (lines
253-265 of `alembic_bot_gocd.py`).  The fresh random tokens
(`uuid.uuid4().hex[:12]` and `uuid.uuid4().hex[:5]`) are passed as the
parameters `token12` and `token5`.  The candidate is the 12-character
token; when every head id is sequential the for/else overrides it with the
maximum prefix plus one, zero-padded, an underscore and the 5-character
token. -/
def merge_head_revision_id (revisions : List String)
    (token12 token5 : String) : String :=
  match mergeSeqScan revisions 0 with
  | none => token12
  | some maxc => format05 (maxc + 1) ++ "_" ++ token5

/-- Insert-if-absent, the embedding of Python `set.add` on a
duplicate-free list. -/
def addElem (x : PyVal) (l : List PyVal) : List PyVal :=
  if x ∈ l then l else l ++ [x]

/-- Embedding of the per-directory body of `get_alembic_revision_map`
(lines 104-142 of `alembic_bot_pr.py`) over the list of parse results of
the directory's migration files.  Files whose parse yielded two falsy
values are skipped; every surviving revision value enters the history set
and the predecessor values enter the `down_revisions` set (`None` ignored,
a string added, a tuple's elements added, any other type raises the
"Implementation Error" exception).  An empty directory (`both sets empty`)
yields `none` ("no revisions found", the caller skips it).  Otherwise the
head is `history - down_revisions`; the `assert len(head_revision) == 1`
is an error when the difference is not a singleton. -/
def process_directory (files : List (PyVal × PyVal)) :
    Except String (Option (PyVal × List PyVal)) := do
  let acc ← files.foldlM (fun (acc : List PyVal × List PyVal) f => do
    let (hist, downs) := acc
    let (rev, down) := f
    if ¬ rev.truthy ∧ ¬ down.truthy then
      return acc
    else
      let hist1 := addElem rev hist
      match down with
      | .pynone => return (hist1, downs)
      | .pystr s => return (hist1, addElem (.pystr s) downs)
      | .pytuple xs =>
        return (hist1, xs.foldl (fun d x => addElem (.pystr x) d) downs)
      | .pybytes _ =>
        throw "Implementation Error - unknown down_revision type")
    ([], [])
  let (hist, downs) := acc
  if hist = [] ∧ downs = [] then
    return none
  else
    match hist.filter (fun r => r ∉ downs) with
    | [h] => return some (h, hist)
    | _ => throw "assertion failed: expected exactly one head revision"

/-- One directory of the loop of `get_alembic_revision_map`: skip an
empty directory, otherwise append its `(location, head, history)` entry. -/
def revisionMapStep (acc : List (String × PyVal × List PyVal))
    (d : String × List (PyVal × PyVal)) :
    Except String (List (String × PyVal × List PyVal)) := do
  match ← process_directory d.2 with
  | none => return acc
  | some entry => return acc ++ [(d.1, entry.1, entry.2)]

/-- Embedding of the directory loop of `get_alembic_revision_map`: the
directories are processed in order and accumulated into the map; an empty
directory is skipped; an exception in one directory propagates out of the
function (there is no per-directory handler), so it aborts the whole
computation. -/
def get_alembic_revision_map
    (dirs : List (String × List (PyVal × PyVal))) :
    Except String (List (String × PyVal × List PyVal)) :=
  dirs.foldlM revisionMapStep []

/-- Graph vertex of `get_alembic_revision_graph`: the source's node dict
`{"revision", "parents", "children", "filepath"}`.  Field naming follows
the source: `children` holds the declared `down_revision` ids (the spec's
predecessors) and `parents` holds the derived successor ids. -/
structure RevNode where
  revision : String
  parents : List String
  children : List String
  filepath : String
  deriving Repr, DecidableEq

/-- A Python dict keyed by revision id, embedded as an insertion-ordered
association list. -/
abbrev Graph := List (String × RevNode)

/-- Dict lookup. -/
def lookupG (g : Graph) (r : String) : Option RevNode :=
  (List.find? (fun e => e.1 = r) g).map (fun e => e.2)

/-- Dict key list. -/
def keysG (g : Graph) : List String :=
  g.map (fun e => e.1)

/-- Point update of one key's node (the embedding of mutating
`graph[k]`). -/
def updateG (g : Graph) (k : String) (f : RevNode → RevNode) : Graph :=
  g.map (fun e => if e.1 = k then (e.1, f e.2) else e)

/-- The successor ids of a key (the source's `graph[revision]["parents"]`),
empty when the key is absent. -/
def parentsOf (g : Graph) (r : String) : List String :=
  ((lookupG g r).map RevNode.parents).getD []

/-- Embedding of `insert_node` (lines 203-221 of `alembic_bot_gocd.py`):
register the node in the revision map and the graph, then for each listed
child add the new revision to that child's successor (`parents`) tuple —
an exception if the child is missing — and symmetrically for each listed
parent.  Python raises mid-mutation; the embedding returns the final
`(graph, revision_map)` pair on success and the error otherwise (no claim
inspects the partially mutated state of the error path). -/
def insert_node (graph rmap : Graph) (revision : String)
    (children parents : List String) (filepath : String) :
    Except String (Graph × Graph) := do
  let node : RevNode := ⟨revision, parents, children, filepath⟩
  let rmap1 := rmap ++ [(revision, node)]
  let g1 := graph ++ [(revision, node)]
  let g2 ← children.foldlM (fun g c =>
    if c ∈ keysG g then
      pure (updateG g c (fun n => { n with parents := n.parents ++ [revision] }))
    else throw "Child revision not found in graph") g1
  let g3 ← parents.foldlM (fun g p =>
    if p ∈ keysG g then
      pure (updateG g p (fun n => { n with children := n.children ++ [revision] }))
    else throw "Parent revision not found in graph") g2
  return (g3, rmap1)

/-- Embedding of `remove_node` (lines 224-236 of `alembic_bot_gocd.py`):
drop the revision from every listed child's successor tuple and every
listed parent's child tuple, delete the graph entry, delete the map entry,
and strip the revision from every remaining map node's edge tuples.
Missing keys are Python `KeyError`s, embedded as errors. -/
def remove_node (graph rmap : Graph) (revision : String) :
    Except String (Graph × Graph) := do
  match lookupG graph revision with
  | none => throw "KeyError"
  | some node =>
    let g1 ← node.children.foldlM (fun g c =>
      if c ∈ keysG g then
        pure (updateG g c (fun n =>
          { n with parents := n.parents.filter (fun p => p != revision) }))
      else throw "KeyError") graph
    let g2 ← node.parents.foldlM (fun g p =>
      if p ∈ keysG g then
        pure (updateG g p (fun n =>
          { n with children := n.children.filter (fun c => c != revision) }))
      else throw "KeyError") g1
    let g3 := g2.filter (fun e => e.1 != revision)
    let m1 := (rmap.filter (fun e => e.1 != revision)).map (fun e => (e.1,
      { e.2 with
        children := e.2.children.filter (fun c => c != revision),
        parents := e.2.parents.filter (fun p => p != revision) }))
    return (g3, m1)

/-- One migration file's parse result as consumed by
`get_alembic_revision_graph`: the revision id, the declared
`down_revision` after the source's normalization (`none` for Python
`None`, a one-element list for a single string, the element list for a
tuple), and the file path. -/
structure MigRecord where
  revision : String
  down : Option (List String)
  filepath : String
  deriving Repr, DecidableEq

/-- Truthiness of the normalized `down_revision` (Python `None` and `()`
are falsy; strings and nonempty tuples are truthy). -/
def MigRecord.downTruthy (f : MigRecord) : Bool :=
  match f.down with
  | none => false
  | some l => !l.isEmpty

/-- Dict assignment `d[k] = v`: replace in place when the key exists
(keeping its position, as a Python dict does), append otherwise. -/
def upsertG (g : Graph) (k : String) (n : RevNode) : Graph :=
  if k ∈ keysG g then g.map (fun e => if e.1 = k then (k, n) else e)
  else g ++ [(k, n)]

/-- Embedding of the file loop of `get_alembic_revision_graph` (lines
135-161 of `alembic_bot_gocd.py`): skip files whose parse yields two falsy
values; a file with `down_revision = None` is the origin candidate and a
second candidate raises `found multiple origin revisions`; every surviving
file is entered into the revision map with its normalized `down_revision`
list as `children` and empty `parents`. -/
def buildRevisionMap (files : List MigRecord) :
    Except String (Graph × Option String) :=
  files.foldlM (fun (acc : Graph × Option String) f => do
    let (rmap, origin) := acc
    if f.revision == "" && !f.downTruthy then
      return acc
    else
      match f.down with
      | none =>
        if origin.isSome then
          throw "found multiple origin revisions"
        else
          return (upsertG rmap f.revision ⟨f.revision, [], [], f.filepath⟩,
            some f.revision)
      | some ds =>
        return (upsertG rmap f.revision ⟨f.revision, [], ds, f.filepath⟩,
          origin)) ([], none)

/-- The derived successor list of key `k`: every revision-map entry whose
`children` tuple lists `k`, in map order — the net effect of the
`node["parents"] += (rev,)` accumulation of the recursive `build_graph`
scan. -/
def derivedParents (rmap : Graph) (k : String) : List String :=
  (rmap.filter (fun e => e.2.children.contains k)).map (fun e => e.1)

/-- Successor-edge closure of the origin in the revision map, by bounded
iteration (the bound `rmap.length` rounds suffice: each productive round
adds at least one key). -/
def reachIter (rmap : Graph) : Nat → List String → List String
  | 0, cur => cur
  | n + 1, cur =>
    let new := (rmap.filter (fun e =>
      !cur.contains e.1 && e.2.children.any (fun c => cur.contains c))).map
      (fun e => e.1)
    if new.isEmpty then cur else reachIter rmap n (cur ++ new)

/-- Embedding of `get_alembic_revision_graph` (lines 130-178 of
`alembic_bot_gocd.py`) over the directory's parse results: build the
revision map (raising on a second origin), raise `no origin revision
found` when no origin was seen — in particular on a directory with zero
migration files — then build the graph.  The recursive `build_graph` is
modelled by its net effect: the graph holds exactly the successor-closure
of the origin, each node carrying its derived successor (`parents`) list;
the Python dict's insertion order of the recursion is not tracked (no
claim depends on it). -/
def get_alembic_revision_graph (files : List MigRecord) :
    Except String (Graph × String × Graph) := do
  let (rmap, originOpt) ← buildRevisionMap files
  match originOpt with
  | none => throw "no origin revision found"
  | some origin =>
    let reach := reachIter rmap rmap.length [origin]
    let graph := (rmap.filter (fun e => reach.contains e.1)).map (fun e =>
      (e.1, { e.2 with parents := derivedParents rmap e.1 }))
    return (graph, origin, rmap)

/-- Insert-if-absent on the worklist / processed set of `find_heads`
(Python `set.add`). -/
def addSet (x : String) (l : List String) : List String :=
  if x ∈ l then l else x :: l

/-- The body of the `while revisions:` loop of `find_heads` (lines 181-200
of `alembic_bot_gocd.py`), with explicit fuel.  The worklist and the
processed set are duplicate-free lists; Python's `set.pop` returns an
arbitrary element, which the embedding fixes to the list head (one
admissible order).  A popped revision with an empty successor (`parents`)
set is appended to `heads` and recorded in the processed set; otherwise
each successor not yet in the processed set is added to both the worklist
and the processed set.  The returned pair is `(heads, visited)` where
`visited` records every popped revision in order (the heads are returned
as their revision ids; the source returns the node dicts, which the ids
key).  `none` signals fuel exhaustion or a missing key (a Python
`KeyError`); both are ruled out under the well-formedness hypotheses. -/
def findHeadsAux (g : Graph) :
    Nat → List String → List String → List String → List String →
    Option (List String × List String)
  | 0, _, _, _, _ => none
  | _ + 1, [], _, heads, visited => some (heads, visited)
  | fuel + 1, r :: rest, processed, heads, visited =>
    match lookupG g r with
    | none => none
    | some node =>
      if node.parents.isEmpty then
        findHeadsAux g fuel rest (addSet r processed) (heads ++ [r])
          (visited ++ [r])
      else
        let st := node.parents.foldl
          (fun (st : List String × List String) p =>
            if p ∈ st.2 then st else (addSet p st.1, p :: st.2))
          (rest, processed)
        findHeadsAux g fuel st.1 st.2 heads (visited ++ [r])

/-- Embedding of `find_heads`: the initial worklist is the start node's
successor set, or the start node itself when that set is empty
(`set(node["parents"]) or {node["revision"]}`).  The fuel
`g.length + init.length + 1` suffices on well-formed graphs (proved
below). -/
def find_heads (g : Graph) (node : RevNode) :
    Option (List String × List String) :=
  let initRaw := node.parents.dedup
  let init := if initRaw.isEmpty then [node.revision] else initRaw
  findHeadsAux g (g.length + init.length + 1) init [] [] []

/-- `find_heads` started from a key of the graph, as `main` starts it from
`graph[origin_revision]`. -/
def find_heads_from (g : Graph) (root : String) :
    Option (List String × List String) :=
  match lookupG g root with
  | none => none
  | some n => find_heads g n

/-- Reachability through successor (`parents`) edges: `Reach g a b` holds
when `b` is reachable from `a` (reflexively). -/
inductive Reach (g : Graph) : String → String → Prop
  | refl (a : String) : Reach g a a
  | step {a b c : String} : b ∈ parentsOf g a → Reach g b c → Reach g a c

/-- Well-formedness of a revision graph with distinguished root, as
guaranteed by construction: duplicate-free keys, nodes keyed by their own
revision, successor edges staying inside the graph, and every key
reachable from the root (the builder only ever adds nodes connected to the
origin). -/
structure WFGraph (g : Graph) (root : String) : Prop where
  keysNodup : (keysG g).Nodup
  keyed : ∀ e ∈ g, e.2.revision = e.1
  closed : ∀ e ∈ g, ∀ p ∈ e.2.parents, p ∈ keysG g
  rootMem : root ∈ keysG g
  reachAll : ∀ k ∈ keysG g, Reach g root k

/-- `Except` success test (the run produced a value rather than
propagating an exception). -/
def isOkE {ε α : Type _} : Except ε α → Bool
  | .ok _ => true
  | .error _ => false

/-- Example graph for the head finder: root `r0` with successors `a0` and
`b0`, `b0` with successor `a0` (a merge node `a0` joining `r0` and `b0`),
and `a0` with successor `c0`, the sole head. -/
def exG : Graph := [
  ("r0", ⟨"r0", ["a0", "b0"], [], "fr"⟩),
  ("a0", ⟨"a0", ["c0"], ["r0", "b0"], "fa"⟩),
  ("b0", ⟨"b0", ["a0"], ["r0"], "fb"⟩),
  ("c0", ⟨"c0", [], ["a0"], "fc"⟩)]

/-- A two-node chain: root `w0` with sole head `w1`. -/
def exW : Graph := [
  ("w0", ⟨"w0", ["w1"], [], "f0"⟩),
  ("w1", ⟨"w1", [], ["w0"], "f1"⟩)]

/-- A fork: root `m0` with two heads `h1` and `h2`. -/
def exM : Graph := [
  ("m0", ⟨"m0", ["h1", "h2"], [], "fm"⟩),
  ("h1", ⟨"h1", [], ["m0"], "f1"⟩),
  ("h2", ⟨"h2", [], ["m0"], "f2"⟩)]

/-- Loop invariant of the `find_heads` worklist: the worklist `ws` is a
duplicate-free list of keys; collected `heads` are exactly heads of the
graph, without duplicates, already recorded in the processed set and no
longer pending; every processed element that is no longer pending is
either a collected head or has all its successors recorded
(`procChain`); every head of the graph is collected or still reachable
from the worklist (`complete`); and every revision has been popped
(recorded in `vis`) plus pending plus never-recorded at most twice in
total (`countB`), which bounds the number of visits. -/
structure FHInv (g : Graph) (ws proc heads vis : List String) : Prop where
  wsNodup : ws.Nodup
  wsKeys : ∀ x ∈ ws, x ∈ keysG g
  procKeys : ∀ x ∈ proc, x ∈ keysG g
  headsSound : ∀ h ∈ heads, h ∈ keysG g ∧ parentsOf g h = []
  headsNodup : heads.Nodup
  headsProc : ∀ h ∈ heads, h ∈ proc
  headsWs : ∀ h ∈ heads, h ∉ ws
  procChain : ∀ x ∈ proc, x ∉ ws →
    (parentsOf g x = [] → x ∈ heads) ∧ (∀ p ∈ parentsOf g x, p ∈ proc)
  complete : ∀ k ∈ keysG g, parentsOf g k = [] →
    k ∈ heads ∨ ∃ w ∈ ws, Reach g w k
  countB : ∀ x, vis.count x + ws.count x +
    (if x ∈ proc then 0 else 1) ≤ 2

/-- Termination measure of the `find_heads` loop: pending worklist
entries plus keys not yet recorded in the processed set. -/
def fhMeasure (g : Graph) (ws proc : List String) : Nat :=
  ws.length + ((keysG g).filter (fun k => k ∉ proc)).length

/-! ## Theorems -/

theorem revisionMap_foldlM_isOk_false
    (dirs : List (String × List (PyVal × PyVal)))
    (d : String × List (PyVal × PyVal)) (hmem : d ∈ dirs)
    (herr : isOkE (process_directory d.2) = false) :
    ∀ acc, isOkE (dirs.foldlM revisionMapStep acc) = false := by
  induction dirs with
  | nil => cases hmem
  | cons x rest ih =>
    intro acc
    rcases List.mem_cons.mp hmem with h | h
    · subst h
      cases hp : process_directory d.2 with
      | error e =>
        simp only [List.foldlM, revisionMapStep, hp]
        rfl
      | ok v => rw [hp] at herr; simp [isOkE] at herr
    · cases hp : process_directory x.2 with
      | error e =>
        simp only [List.foldlM, revisionMapStep, hp]
        rfl
      | ok v =>
        cases v with
        | none =>
          simp only [List.foldlM, revisionMapStep, hp]
          exact ih h acc
        | some entry =>
          simp only [List.foldlM, revisionMapStep, hp]
          exact ih h (acc ++ [(x.1, entry.1, entry.2)])

/-- C5: for a changed migration file whose parse produced truthy revision
and predecessor values, the repair engine classifies it stale exactly when
the revision is not in the mainline history, the declared predecessor is
in the history, and that predecessor differs from the mainline head. -/
theorem stale_classification_iff (r d : PyVal) (hist : List PyVal)
    (head : PyVal) (hr : r.truthy = true) (hd : d.truthy = true) :
    classify r d hist head = .stale ↔
      (r ∉ hist ∧ d ∈ hist ∧ d ≠ head) := by
  unfold classify
  rw [if_neg (by simp [hr, hd] :
    ¬ (¬ (r.truthy = true) ∨ ¬ (d.truthy = true)))]
  by_cases h1 : r ∈ hist
  · rw [if_pos h1]; simp [h1]
  · rw [if_neg h1]
    by_cases h2 : d ∈ hist
    · rw [if_neg (by simpa using h2 : ¬ d ∉ hist)]
      by_cases h3 : d = head
      · rw [if_pos h3]; simp [h1, h2, h3]
      · rw [if_neg h3]; simp [h1, h2, h3]
    · rw [if_pos h2]; simp [h2]

/-- Witness for C5 at the spec's concrete example: history `{A, B}` with
head `B`, a changed file declaring revision `C` and predecessor `A` is
stale, while the same file declaring predecessor `B` is consistent. -/
theorem stale_classification_iff_witness :
    (PyVal.pystr "C").truthy = true ∧ (PyVal.pystr "A").truthy = true ∧
    (classify (.pystr "C") (.pystr "A") [.pystr "A", .pystr "B"]
        (.pystr "B") = .stale ↔
      (PyVal.pystr "C" ∉ [PyVal.pystr "A", PyVal.pystr "B"] ∧
        PyVal.pystr "A" ∈ [PyVal.pystr "A", PyVal.pystr "B"] ∧
        PyVal.pystr "A" ≠ PyVal.pystr "B")) ∧
    classify (.pystr "C") (.pystr "A") [.pystr "A", .pystr "B"]
        (.pystr "B") = .stale ∧
    classify (.pystr "C") (.pystr "B") [.pystr "A", .pystr "B"]
        (.pystr "B") = .skipAlreadyConsistent :=
  ⟨by decide, by decide,
    stale_classification_iff _ _ _ _ (by decide) (by decide),
    by decide, by decide⟩

/-- C1 counterexample: with head `00010_abcde`, a stale file
`00011_fghij` with predecessor `00009_xyz12`, the repair action computes
the new id `00011_fghij` — the head prefix `00010` plus one — not
`00012_fghij` as claimed: the path keeps the id `00011_fghij` and the
claimed renamed id differs from the computed one. -/
theorem sequential_repair_counterexample :
    update_file "00010_abcde" "00011_fghij" "00009_xyz12"
      "versions/00011_fghij_m.py"
      "revision = \"00011_fghij\"\ndown_revision = \"00009_xyz12\"\n" =
      (some "versions/00011_fghij_m.py",
        "revision = \"00011_fghij\"\ndown_revision = \"00010_abcde\"\n") ∧
    format05 (10 + 1) ++ "_" ++ "fghij" ≠ "00012_fghij" :=
  ⟨by decide, by decide⟩

/-- C1 amended: with head `00010_abcde`, a stale file `00011_fghij` with
predecessor `00009_xyz12` gets the new id `00011_fghij` (the head's
prefix incremented, keeping the file's own suffix) — so the path and the
revision id are unchanged — and its predecessor reference is rewritten to
`00010_abcde`. -/
theorem sequential_repair_example :
    update_file "00010_abcde" "00011_fghij" "00009_xyz12"
      "versions/00011_fghij_m.py"
      "revision = \"00011_fghij\"\ndown_revision = \"00009_xyz12\"\n" =
      (some "versions/00011_fghij_m.py",
        "revision = \"00011_fghij\"\ndown_revision = \"00010_abcde\"\n") ∧
    format05 (10 + 1) ++ "_" ++ "fghij" = "00011_fghij" :=
  ⟨by decide, by decide⟩

/-- C2 counterexample: a stale file whose own revision id `00005_abcde`
is in sequential form is *not* renamed when the mainline head
(`x1y2z3w4v5u6`) is not in sequential form — the code keys the rename on
the head's id, not the file's own id: the action rewrites the contents in
place and returns no renamed path. -/
theorem rename_trigger_counterexample :
    (update_file "x1y2z3w4v5u6" "00005_abcde" "oldpred12345"
      "versions/00005_abcde_m.py"
      "revision = \"00005_abcde\"\ndown_revision = \"oldpred12345\"\n").1 =
      none ∧
    (seqMatch "00005_abcde").isSome = true ∧
    seqMatch "x1y2z3w4v5u6" = none :=
  ⟨by decide, by decide, by decide⟩

/-- C2 amended: for every stale changed file, when the *mainline head's*
id is in sequential form, the repair action computes the new sequential id
by incrementing the head's 5-digit prefix (zero-padded to five digits),
keeping the file's own 5-character suffix when its own id is sequential
(the head's suffix otherwise), writes the file under a renamed path
obtained by substituting the old id with the new id, and substitutes the
old id with the new id throughout the contents already rewritten from the
old predecessor to the head. -/
theorem rename_on_sequential_head (head rev down fname contents : String)
    (hp : Nat) (hsuf : String) (h : seqMatch head = some (hp, hsuf)) :
    update_file head rev down fname contents =
      (some (strReplace fname rev
        (format05 (hp + 1) ++ "_" ++ (seqMatch rev).elim hsuf Prod.snd)),
       strReplace (strReplace contents down head) rev
        (format05 (hp + 1) ++ "_" ++ (seqMatch rev).elim hsuf Prod.snd)) := by
  unfold update_file
  rw [h]
  cases hm : seqMatch rev <;> simp [hm, Option.elim]

/-- Witness for C2 amended at the head `00010_abcde` and the file
`00011_fghij`. -/
theorem rename_on_sequential_head_witness :
    update_file "00010_abcde" "00011_fghij" "00009_xyz12"
      "versions/00011_fghij_m.py"
      "revision = \"00011_fghij\"\ndown_revision = \"00009_xyz12\"\n" =
      (some (strReplace "versions/00011_fghij_m.py" "00011_fghij"
        (format05 (10 + 1) ++ "_" ++
          (seqMatch "00011_fghij").elim "abcde" Prod.snd)),
       strReplace (strReplace
          "revision = \"00011_fghij\"\ndown_revision = \"00009_xyz12\"\n"
          "00009_xyz12" "00010_abcde") "00011_fghij"
        (format05 (10 + 1) ++ "_" ++
          (seqMatch "00011_fghij").elim "abcde" Prod.snd)) :=
  rename_on_sequential_head "00010_abcde" "00011_fghij" "00009_xyz12"
    "versions/00011_fghij_m.py"
    "revision = \"00011_fghij\"\ndown_revision = \"00009_xyz12\"\n"
    10 "abcde" (by decide)

/-- C3 counterexample: a run over a directory whose head-difference has
two elements followed by a well-formed directory aborts with the
assertion error and produces no map at all — the second directory is not
processed — although the second directory alone succeeds. -/
theorem directory_failure_counterexample :
    get_alembic_revision_map
      [("d1", [(.pystr "a", .pynone), (.pystr "b", .pystr "a"),
        (.pystr "c", .pystr "a")]),
       ("d2", [(.pystr "x", .pynone)])] =
      .error "assertion failed: expected exactly one head revision" ∧
    get_alembic_revision_map [("d2", [(.pystr "x", .pynone)])] =
      .ok [("d2", .pystr "x", [.pystr "x"])] :=
  ⟨rfl, rfl⟩

/-- C3 amended: a failing directory — a head-difference of size other
than one, or any other exception in its pass — aborts the *whole* run of
`get_alembic_revision_map`: the exception propagates (there is no
per-directory handler) and no remaining directory is processed. -/
theorem directory_failure_aborts_run
    (dirs : List (String × List (PyVal × PyVal)))
    (d : String × List (PyVal × PyVal)) (hmem : d ∈ dirs)
    (herr : isOkE (process_directory d.2) = false) :
    isOkE (get_alembic_revision_map dirs) = false :=
  revisionMap_foldlM_isOk_false dirs d hmem herr []

/-- Witness for C3 amended at the two-headed directory. -/
theorem directory_failure_aborts_run_witness :
    isOkE (process_directory [(.pystr "a", .pynone),
      (.pystr "b", .pystr "a"), (.pystr "c", .pystr "a")]) = false ∧
    isOkE (get_alembic_revision_map
      [("d1", [(.pystr "a", .pynone), (.pystr "b", .pystr "a"),
        (.pystr "c", .pystr "a")]),
       ("d3", [(.pystr "y", .pynone)])]) = false :=
  ⟨by decide,
    directory_failure_aborts_run _
      ("d1", [(.pystr "a", .pynone), (.pystr "b", .pystr "a"),
        (.pystr "c", .pystr "a")])
      (by simp) (by decide)⟩

/-- C4 counterexample: on a directory containing zero migration files,
revision-graph construction does not treat the directory as empty — it
raises `no origin revision found`. -/
theorem empty_directory_counterexample :
    get_alembic_revision_graph [] = .error "no origin revision found" :=
  rfl

/-- C4 amended: a directory with zero migration files makes
`get_alembic_revision_graph` raise `no origin revision found`; the
empty-directory skip exists only in the revision-map construction of the
repair pass, where such a directory yields no entry and no error. -/
theorem empty_directory_behaviour :
    get_alembic_revision_graph [] = .error "no origin revision found" ∧
    process_directory [] = .ok none ∧
    get_alembic_revision_map [("d", [])] = .ok [] :=
  ⟨rfl, rfl, rfl⟩

theorem if_gt_eq_max (m n : Nat) : (if n > m then n else m) = max m n := by
  by_cases h : n > m
  · rw [if_pos h, Nat.max_eq_right (Nat.le_of_lt h)]
  · rw [if_neg h, Nat.max_eq_left (Nat.le_of_not_lt h)]

theorem mergeSeqScan_all_some (revs : List String)
    (h : ∀ r ∈ revs, (seqMatch r).isSome = true) :
    ∀ acc, mergeSeqScan revs acc = some (revs.foldl
      (fun m r => max m (((seqMatch r).map Prod.fst).getD 0)) acc) := by
  induction revs with
  | nil => intro acc; rfl
  | cons r rs ih =>
    intro acc
    have hr := h r (List.mem_cons_self r rs)
    cases hm : seqMatch r with
    | none => rw [hm] at hr; simp at hr
    | some pr =>
      simp only [mergeSeqScan, hm, List.foldl]
      rw [ih (fun x hx => h x (List.mem_cons_of_mem _ hx))]
      cases pr with
      | mk n s => simp [hm, if_gt_eq_max]

theorem mergeSeqScan_break (revs : List String) (r : String)
    (hmem : r ∈ revs) (hn : seqMatch r = none) :
    ∀ acc, mergeSeqScan revs acc = none := by
  induction revs with
  | nil => cases hmem
  | cons x rs ih =>
    intro acc
    cases hm : seqMatch x with
    | none => simp [mergeSeqScan, hm]
    | some pr =>
      simp only [mergeSeqScan, hm]
      rcases List.mem_cons.mp hmem with h | h
      · subst h; rw [hm] at hn; simp at hn
      · exact ih h _

/-- C6: merging `n ≥ 2` heads, when every head id is in sequential form
the synthesized id is the maximum head prefix plus one, zero-padded to
five digits, an underscore, and the freshly generated 5-character suffix;
when at least one head id is not in sequential form the synthesized id is
the 12-character random token. -/
theorem merge_head_id_shape (revs : List String) (t12 t5 : String)
    (_hlen : 2 ≤ revs.length) (h12 : t12.length = 12)
    (_h5 : t5.length = 5) :
    ((∀ r ∈ revs, (seqMatch r).isSome = true) →
      merge_head_revision_id revs t12 t5 =
        format05 (revs.foldl
          (fun m r => max m (((seqMatch r).map Prod.fst).getD 0)) 0 + 1) ++
          "_" ++ t5) ∧
    ((∃ r ∈ revs, seqMatch r = none) →
      merge_head_revision_id revs t12 t5 = t12 ∧
      (merge_head_revision_id revs t12 t5).length = 12) := by
  constructor
  · intro hall
    unfold merge_head_revision_id
    rw [mergeSeqScan_all_some revs hall 0]
  · rintro ⟨r, hmem, hn⟩
    unfold merge_head_revision_id
    rw [mergeSeqScan_break revs r hmem hn 0]
    exact ⟨rfl, h12⟩

/-- Witness for C6: the spec's prefixes `00007` and `00009` produce the
prefix `00010`, and a non-sequential head keeps the 12-character random
token. -/
theorem merge_head_id_shape_witness :
    merge_head_revision_id ["00007_aaaaa", "00009_bbbbb"] "abcdefabcdef"
      "ccccc" = "00010_ccccc" ∧
    merge_head_revision_id ["00007_aaaaa", "zzz"] "abcdefabcdef"
      "ccccc" = "abcdefabcdef" := by
  constructor
  · have h := (merge_head_id_shape ["00007_aaaaa", "00009_bbbbb"]
      "abcdefabcdef" "ccccc" (by decide) (by decide) (by decide)).1
      (by decide)
    exact h.trans (by decide)
  · have h := (merge_head_id_shape ["00007_aaaaa", "zzz"]
      "abcdefabcdef" "ccccc" (by decide) (by decide) (by decide)).2
      ⟨"zzz", by decide, by decide⟩
    exact h.1

theorem matchAssignAt_ne_nil {pat cs c : List Char}
    (h : matchAssignAt pat cs = some c) : c ≠ [] := by
  unfold matchAssignAt at h
  repeat' split at h
  all_goals simp_all
  rename_i hex hq2
  subst h
  simpa [List.takeWhile_eq_nil_iff] using hex

theorem reSearchAssign_ne_nil {pat : List Char} :
    ∀ {cs c : List Char}, reSearchAssign pat cs = some c → c ≠ [] := by
  intro cs
  induction cs with
  | nil =>
    intro c h
    exact matchAssignAt_ne_nil (by simpa [reSearchAssign] using h)
  | cons x rest ih =>
    intro c h
    simp only [reSearchAssign] at h
    cases hm : matchAssignAt pat (x :: rest) with
    | some r =>
      rw [hm] at h
      injection h with h2
      subst h2
      exact matchAssignAt_ne_nil hm
    | none => rw [hm] at h; exact ih h

/-- C10: when the structural parse raises and both textual fallback
patterns match, the parser returns the raw byte captures; a byte value is
never equal to a string the structural strategy returns, so over a
string-valued mainline history the repair decision always skips such a
file with its predecessor treated as absent from the history. -/
theorem fallback_bytes_skip (contents : List Char) (c1 c2 : List Char)
    (hist : List PyVal) (head : PyVal)
    (h1 : reSearchAssign revPat contents = some c1)
    (h2 : reSearchAssign downPat contents = some c2)
    (hs : ∀ v ∈ hist, ∃ s, v = PyVal.pystr s) :
    parse_revisions_from_file none contents = (.pybytes c1, .pybytes c2) ∧
    (∀ s, PyVal.pybytes c1 ≠ .pystr s) ∧
    (∀ s, PyVal.pybytes c2 ≠ .pystr s) ∧
    classify (.pybytes c1) (.pybytes c2) hist head =
      .skipPredecessorMissing := by
  refine ⟨?_, ?_, ?_, ?_⟩
  · simp [parse_revisions_from_file, h1, h2]
  · intro s hcon; cases hcon
  · intro s hcon; cases hcon
  · have t1 : (PyVal.pybytes c1).truthy = true := by
      have := reSearchAssign_ne_nil h1
      simp [PyVal.truthy]
      simpa using this
    have t2 : (PyVal.pybytes c2).truthy = true := by
      have := reSearchAssign_ne_nil h2
      simp [PyVal.truthy]
      simpa using this
    have m1 : PyVal.pybytes c1 ∉ hist := by
      intro hmem
      obtain ⟨s, hsx⟩ := hs _ hmem
      cases hsx
    have m2 : PyVal.pybytes c2 ∉ hist := by
      intro hmem
      obtain ⟨s, hsx⟩ := hs _ hmem
      cases hsx
    unfold classify
    rw [if_neg (by simp [t1, t2] :
      ¬ (¬ ((PyVal.pybytes c1).truthy = true) ∨
        ¬ ((PyVal.pybytes c2).truthy = true)))]
    rw [if_neg m1, if_pos m2]

/-- Witness for C10 on a file whose AST parse raised (`astResult = none`)
and whose raw bytes contain both fallback assignments. -/
theorem fallback_bytes_skip_witness :
    parse_revisions_from_file none
      "@@@ revision = 'abc' down_revision = 'de_f'".toList =
      (.pybytes ['a', 'b', 'c'], .pybytes ['d', 'e', '_', 'f']) ∧
    (∀ s, PyVal.pybytes ['a', 'b', 'c'] ≠ .pystr s) ∧
    (∀ s, PyVal.pybytes ['d', 'e', '_', 'f'] ≠ .pystr s) ∧
    classify (.pybytes ['a', 'b', 'c'])
      (.pybytes ['d', 'e', '_', 'f']) [.pystr "abc"] (.pystr "zz") =
      .skipPredecessorMissing :=
  fallback_bytes_skip _ _ _ _ _ (by decide) (by decide)
    (by intro v hv; simp at hv; exact ⟨"abc", hv⟩)

theorem keysG_updateG (g : Graph) (k : String) (f : RevNode → RevNode) :
    keysG (updateG g k f) = keysG g := by
  simp only [keysG, updateG, List.map_map]
  apply List.map_congr_left
  intro e _
  by_cases h : e.1 = k <;> simp [h]

theorem keysG_map_pres (g : Graph)
    (F : String × RevNode → String × RevNode)
    (h : ∀ e, (F e).1 = e.1) : keysG (g.map F) = keysG g := by
  simp only [keysG, List.map_map]
  exact List.map_congr_left (fun e _ => h e)

theorem foldlM_guard_update_ok (u : RevNode → RevNode) (msg : String) :
    ∀ (cs : List String) (g : Graph), (∀ c ∈ cs, c ∈ keysG g) →
    (cs.foldlM (fun g c =>
      if c ∈ keysG g then pure (updateG g c u)
      else throw msg) g : Except String Graph) =
      .ok (cs.foldl (fun g c => updateG g c u) g) := by
  intro cs
  induction cs with
  | nil => intro g _; rfl
  | cons c rest ih =>
    intro g h
    have hc : c ∈ keysG g := h c (List.mem_cons_self c rest)
    simp only [List.foldlM, List.foldl, if_pos hc]
    exact ih (updateG g c u) (fun x hx => by
      rw [keysG_updateG]; exact h x (List.mem_cons_of_mem _ hx))

theorem foldl_updateG_eq_map (u : RevNode → RevNode) :
    ∀ (cs : List String) (g : Graph),
    cs.foldl (fun g c => updateG g c u) g =
      g.map (fun e => (e.1, u^[cs.count e.1] e.2)) := by
  intro cs
  induction cs with
  | nil =>
    intro g
    simp only [List.foldl, List.count_nil, Function.iterate_zero, id]
    exact (List.map_id ..).symm
  | cons c rest ih =>
    intro g
    simp only [List.foldl]
    rw [ih (updateG g c u)]
    simp only [updateG, List.map_map]
    apply List.map_congr_left
    intro e _
    simp only [Function.comp_apply]
    by_cases h : e.1 = c
    · rw [if_pos h]
      simp only [List.count_cons, h]
      rw [← Function.iterate_succ_apply]
      simp
    · have h2 : ¬ (c = e.1) := fun hc => h hc.symm
      rw [if_neg h]
      simp [List.count_cons, h, h2]

theorem iterate_addParent (r : String) (n : Nat) (x : RevNode) :
    (fun m => { m with parents := m.parents ++ [r] })^[n] x =
      { x with parents := x.parents ++ List.replicate n r } := by
  induction n with
  | zero => simp
  | succ k ih =>
    rw [Function.iterate_succ_apply', ih, List.replicate_succ']
    simp

theorem iterate_addChild (r : String) (n : Nat) (x : RevNode) :
    (fun m => { m with children := m.children ++ [r] })^[n] x =
      { x with children := x.children ++ List.replicate n r } := by
  induction n with
  | zero => simp
  | succ k ih =>
    rw [Function.iterate_succ_apply', ih, List.replicate_succ']
    simp

theorem iterate_filterParent (r : String) (n : Nat) (x : RevNode) :
    (fun m => { m with parents := m.parents.filter (fun p => p != r) })^[n] x =
      if n = 0 then x
      else { x with parents := x.parents.filter (fun p => p != r) } := by
  induction n with
  | zero => simp
  | succ k ih =>
    rw [Function.iterate_succ_apply', ih]
    cases k with
    | zero => simp
    | succ j => simp [List.filter_filter]

theorem iterate_filterChild (r : String) (n : Nat) (x : RevNode) :
    (fun m => { m with children := m.children.filter (fun c => c != r) })^[n] x =
      if n = 0 then x
      else { x with children := x.children.filter (fun c => c != r) } := by
  induction n with
  | zero => simp
  | succ k ih =>
    rw [Function.iterate_succ_apply', ih]
    cases k with
    | zero => simp
    | succ j => simp [List.filter_filter]

theorem filter_bne_eq_self {l : List String} {r : String} (h : r ∉ l) :
    l.filter (fun x => x != r) = l := by
  induction l with
  | nil => rfl
  | cons a t ih =>
    have h1 : ¬ (r = a ∨ r ∈ t) := by simpa [List.mem_cons] using h
    push_neg at h1
    have ha : (a != r) = true := by
      simp [bne_iff_ne]
      exact fun hc => h1.1 hc.symm
    simp [List.filter_cons, ha, ih h1.2]

theorem filter_bne_replicate (r : String) (a : Nat) :
    (List.replicate a r).filter (fun x => x != r) = [] := by
  induction a with
  | zero => rfl
  | succ k ih => simp [List.replicate_succ, List.filter_cons, ih]

theorem restore_append_replicate {l : List String} {r : String} (a : Nat)
    (h : r ∉ l) :
    (l ++ List.replicate a r).filter (fun x => x != r) = l := by
  rw [List.filter_append, filter_bne_eq_self h, filter_bne_replicate,
    List.append_nil]

theorem lookupG_append_fresh (g : Graph) (r : String) (n : RevNode)
    (h : r ∉ keysG g) : lookupG (g ++ [(r, n)]) r = some n := by
  induction g with
  | nil => simp [lookupG, List.find?]
  | cons e rest ih =>
    have h1 : ¬ (r = e.1 ∨ r ∈ keysG rest) := by
      simpa [keysG, List.mem_cons] using h
    push_neg at h1
    have he : ¬ (e.1 = r) := fun hc => h1.1 hc.symm
    simp only [List.cons_append, lookupG, List.find?]
    rw [show (decide (e.1 = r)) = false by simpa using he]
    exact ih h1.2

theorem bind_okE {α β : Type} (a : α) (f : α → Except String β) :
    (Except.ok a >>= f) = f a := rfl

theorem insert_node_eq (graph rmap : Graph) (r : String)
    (children parents : List String) (fp : String)
    (hc : ∀ c ∈ children, c ∈ keysG graph)
    (hp : ∀ p ∈ parents, p ∈ keysG graph) :
    insert_node graph rmap r children parents fp = .ok
      (((graph ++ [(r, (⟨r, parents, children, fp⟩ : RevNode))]).map
        (fun e => (e.1,
          (fun n => { n with children := n.children ++ [r] })^[parents.count e.1]
            ((fun n => { n with parents := n.parents ++ [r] })^[children.count e.1] e.2)))),
       rmap ++ [(r, (⟨r, parents, children, fp⟩ : RevNode))]) := by
  have hkeys0 : keysG (graph ++ [(r, (⟨r, parents, children, fp⟩ : RevNode))]) =
      keysG graph ++ [r] := by simp [keysG]
  have hmem1 : ∀ c ∈ children,
      c ∈ keysG (graph ++ [(r, (⟨r, parents, children, fp⟩ : RevNode))]) := by
    intro c hcc; rw [hkeys0]; exact List.mem_append_left _ (hc c hcc)
  have e1 := foldlM_guard_update_ok
    (fun n => { n with parents := n.parents ++ [r] })
    "Child revision not found in graph" children
    (graph ++ [(r, (⟨r, parents, children, fp⟩ : RevNode))]) hmem1
  have hgA := foldl_updateG_eq_map
    (fun n => { n with parents := n.parents ++ [r] }) children
    (graph ++ [(r, (⟨r, parents, children, fp⟩ : RevNode))])
  have hkeysA : keysG (children.foldl (fun g c => updateG g c
      (fun n => { n with parents := n.parents ++ [r] }))
      (graph ++ [(r, (⟨r, parents, children, fp⟩ : RevNode))])) =
      keysG graph ++ [r] := by
    rw [hgA, keysG_map_pres
      (graph ++ [(r, (⟨r, parents, children, fp⟩ : RevNode))])
      (fun e => (e.1, (fun n =>
        { n with parents := n.parents ++ [r] })^[children.count e.1] e.2))
      (fun e => rfl), hkeys0]
  have hmem2 : ∀ p ∈ parents,
      p ∈ keysG (children.foldl (fun g c => updateG g c
      (fun n => { n with parents := n.parents ++ [r] }))
      (graph ++ [(r, (⟨r, parents, children, fp⟩ : RevNode))])) := by
    intro p hpp; rw [hkeysA]; exact List.mem_append_left _ (hp p hpp)
  have e2 := foldlM_guard_update_ok
    (fun n => { n with children := n.children ++ [r] })
    "Parent revision not found in graph" parents _ hmem2
  have hgB := foldl_updateG_eq_map
    (fun n => { n with children := n.children ++ [r] }) parents
    (children.foldl (fun g c => updateG g c
      (fun n => { n with parents := n.parents ++ [r] }))
      (graph ++ [(r, (⟨r, parents, children, fp⟩ : RevNode))]))
  simp only [insert_node]
  rw [e1, bind_okE, e2, bind_okE, hgB, hgA, List.map_map]
  rfl


theorem remove_node_eq (g m : Graph) (r : String) (node : RevNode)
    (hl : lookupG g r = some node)
    (hcm : ∀ c ∈ node.children, c ∈ keysG g)
    (hpm : ∀ p ∈ node.parents, p ∈ keysG g) :
    remove_node g m r = .ok
      ((g.map (fun e => (e.1,
          (fun n => { n with children := n.children.filter (fun c => c != r) })^[node.parents.count e.1]
            ((fun n => { n with parents := n.parents.filter (fun p => p != r) })^[node.children.count e.1] e.2)))).filter
        (fun e => e.1 != r),
       (m.filter (fun e => e.1 != r)).map (fun e => (e.1,
         { e.2 with
           children := e.2.children.filter (fun c => c != r),
           parents := e.2.parents.filter (fun p => p != r) }))) := by
  have e3 := foldlM_guard_update_ok
    (fun n => { n with parents := n.parents.filter (fun p => p != r) })
    "KeyError" node.children g hcm
  have hgC := foldl_updateG_eq_map
    (fun n => { n with parents := n.parents.filter (fun p => p != r) })
    node.children g
  have hkeysC : keysG (node.children.foldl (fun g c => updateG g c
      (fun n => { n with parents := n.parents.filter (fun p => p != r) })) g) =
      keysG g := by
    rw [hgC, keysG_map_pres g
      (fun e => (e.1, (fun n =>
        { n with parents := n.parents.filter (fun p => p != r) })^[node.children.count e.1] e.2))
      (fun e => rfl)]
  have hmem4 : ∀ p ∈ node.parents,
      p ∈ keysG (node.children.foldl (fun g c => updateG g c
      (fun n => { n with parents := n.parents.filter (fun p => p != r) })) g) := by
    intro p hpp; rw [hkeysC]; exact hpm p hpp
  have e4 := foldlM_guard_update_ok
    (fun n => { n with children := n.children.filter (fun c => c != r) })
    "KeyError" node.parents _ hmem4
  have hgD := foldl_updateG_eq_map
    (fun n => { n with children := n.children.filter (fun c => c != r) })
    node.parents
    (node.children.foldl (fun g c => updateG g c
      (fun n => { n with parents := n.parents.filter (fun p => p != r) })) g)
  simp only [remove_node]
  rw [hl]
  show (do
    let g1 ← node.children.foldlM (fun g c =>
      if c ∈ keysG g then
        pure (updateG g c (fun n =>
          { n with parents := n.parents.filter (fun p => p != r) }))
      else throw "KeyError") g
    let g2 ← node.parents.foldlM (fun g p =>
      if p ∈ keysG g then
        pure (updateG g p (fun n =>
          { n with children := n.children.filter (fun c => c != r) }))
      else throw "KeyError") g1
    let g3 := g2.filter (fun e : String × RevNode => e.1 != r)
    let m1 := (m.filter (fun e : String × RevNode => e.1 != r)).map
      (fun e : String × RevNode => (e.1,
      { e.2 with
        children := e.2.children.filter (fun c => c != r),
        parents := e.2.parents.filter (fun p => p != r) }))
    return (g3, m1)) = _
  rw [e3, bind_okE, e4, bind_okE, hgD, hgC, List.map_map]
  rfl


theorem filter_keys (g : Graph) (r : String) (h : r ∉ keysG g) :
    g.filter (fun e => e.1 != r) = g := by
  apply List.filter_eq_self.mpr
  intro e he
  have hk : e.1 ∈ keysG g := List.mem_map.mpr ⟨e, he, rfl⟩
  have hne : e.1 ≠ r := fun hc2 => h (hc2 ▸ hk)
  simpa [bne_iff_ne] using hne

theorem map_restore_id (g : Graph) (F : String × RevNode → String × RevNode)
    (h : ∀ e ∈ g, F e = e) : g.map F = g :=
  (List.map_congr_left (fun e he => (h e he).trans rfl)).trans (List.map_id g)

theorem node_restore (x : RevNode) (r : String) (a b : Nat)
    (h1 : r ∉ x.parents) (h2 : r ∉ x.children) :
    (fun n => { n with children := n.children.filter (fun c => c != r) })^[b]
      ((fun n => { n with parents := n.parents.filter (fun p => p != r) })^[a]
        ((fun n => { n with children := n.children ++ [r] })^[b]
          ((fun n => { n with parents := n.parents ++ [r] })^[a] x))) = x := by
  rw [iterate_addParent, iterate_addChild, iterate_filterParent,
    iterate_filterChild]
  by_cases ha : a = 0 <;> by_cases hb : b = 0 <;>
    simp [ha, hb, restore_append_replicate a h1, restore_append_replicate b h2]

/-- C9: for every graph and revision map, inserting a fresh revision
whose listed predecessor (`children`) and successor (`parents`) ids all
exist in the graph and then immediately removing it succeeds and restores
both structures exactly — the same entries with identical predecessor and
successor tuples for every remaining node. -/
theorem insert_remove_round_trip (graph rmap : Graph) (r : String)
    (children parents : List String) (fp : String)
    (hgk : r ∉ keysG graph)
    (hge : ∀ e ∈ graph, r ∉ e.2.parents ∧ r ∉ e.2.children)
    (hmk : r ∉ keysG rmap)
    (hme : ∀ e ∈ rmap, r ∉ e.2.parents ∧ r ∉ e.2.children)
    (hc : ∀ c ∈ children, c ∈ keysG graph)
    (hp : ∀ p ∈ parents, p ∈ keysG graph) :
    ∃ g1 m1, insert_node graph rmap r children parents fp = .ok (g1, m1) ∧
      remove_node g1 m1 r = .ok (graph, rmap) := by
  have hrc : r ∉ children := fun hx => hgk (hc r hx)
  have hrp : r ∉ parents := fun hx => hgk (hp r hx)
  refine ⟨_, _, insert_node_eq graph rmap r children parents fp hc hp, ?_⟩
  -- names for the two per-entry insert updates
  have hsplit : ((graph ++ [(r, (⟨r, parents, children, fp⟩ : RevNode))]).map
      (fun e => (e.1,
        (fun n => { n with children := n.children ++ [r] })^[parents.count e.1]
          ((fun n => { n with parents := n.parents ++ [r] })^[children.count e.1] e.2)))) =
      (graph.map (fun e => (e.1,
        (fun n => { n with children := n.children ++ [r] })^[parents.count e.1]
          ((fun n => { n with parents := n.parents ++ [r] })^[children.count e.1] e.2)))) ++
      [(r, (⟨r, parents, children, fp⟩ : RevNode))] := by
    rw [List.map_append]
    congr 1
    simp [List.count_eq_zero.mpr hrc, List.count_eq_zero.mpr hrp]
  rw [hsplit]
  have hkeysIns : keysG (graph.map (fun e => (e.1,
      (fun n => { n with children := n.children ++ [r] })^[parents.count e.1]
        ((fun n => { n with parents := n.parents ++ [r] })^[children.count e.1] e.2)))) =
      keysG graph :=
    keysG_map_pres graph _ (fun e => rfl)
  have hlook : lookupG ((graph.map (fun e => (e.1,
      (fun n => { n with children := n.children ++ [r] })^[parents.count e.1]
        ((fun n => { n with parents := n.parents ++ [r] })^[children.count e.1] e.2)))) ++
      [(r, (⟨r, parents, children, fp⟩ : RevNode))]) r =
      some (⟨r, parents, children, fp⟩ : RevNode) := by
    apply lookupG_append_fresh
    rw [hkeysIns]
    exact hgk
  have hrem := remove_node_eq
    ((graph.map (fun e => (e.1,
      (fun n => { n with children := n.children ++ [r] })^[parents.count e.1]
        ((fun n => { n with parents := n.parents ++ [r] })^[children.count e.1] e.2)))) ++
      [(r, (⟨r, parents, children, fp⟩ : RevNode))])
    (rmap ++ [(r, (⟨r, parents, children, fp⟩ : RevNode))]) r
    (⟨r, parents, children, fp⟩ : RevNode) hlook
    (by intro c hcc
        rw [keysG, List.map_append, ← keysG, ← keysG, hkeysIns]
        exact List.mem_append_left _ (hc c hcc))
    (by intro p hpp
        rw [keysG, List.map_append, ← keysG, ← keysG, hkeysIns]
        exact List.mem_append_left _ (hp p hpp))
  rw [hrem]
  congr 1
  rw [Prod.ext_iff]
  constructor
  · -- graph side restored
    show _ = graph
    rw [List.map_append, List.filter_append, List.map_map]
    simp only [List.map_cons, List.map_nil, List.filter_cons,
      bne_self_eq_false, Bool.false_eq_true, if_false, List.append_nil]
    rw [filter_keys _ r ?hfresh]
    case hfresh =>
      rw [keysG_map_pres _ _ ?hpres]
      case hpres => intro e; rfl
      exact hgk
    rw [map_restore_id _ _ ?hrest]
    case hrest =>
      intro e he
      simp only [Function.comp_apply]
      rw [node_restore e.2 r (children.count e.1) (parents.count e.1)
        (hge e he).1 (hge e he).2]
    simp
  · -- rmap side restored
    show _ = rmap
    rw [List.filter_append]
    simp only [List.filter_cons, List.filter_nil, bne_self_eq_false,
      Bool.false_eq_true, if_false, List.append_nil]
    rw [filter_keys rmap r hmk]
    rw [map_restore_id _ _ ?hstrip]
    case hstrip =>
      intro e he
      rw [filter_bne_eq_self (hme e he).2, filter_bne_eq_self (hme e he).1]

/-- Witness for C9: insert a fresh merge-style node `q1` over the
one-node graph `{q0}` and remove it again. -/
theorem insert_remove_round_trip_witness :
    ("q1" ∉ keysG [("q0", (⟨"q0", [], [], "f0"⟩ : RevNode))] ∧
      (∀ c ∈ ["q0"], c ∈ keysG [("q0", (⟨"q0", [], [], "f0"⟩ : RevNode))])) ∧
    ∃ g1 m1,
      insert_node [("q0", (⟨"q0", [], [], "f0"⟩ : RevNode))]
        [("q0", (⟨"q0", [], [], "f0"⟩ : RevNode))] "q1" ["q0"] [] "f1" =
        .ok (g1, m1) ∧
      remove_node g1 m1 "q1" =
        .ok ([("q0", (⟨"q0", [], [], "f0"⟩ : RevNode))],
          [("q0", (⟨"q0", [], [], "f0"⟩ : RevNode))]) :=
  ⟨⟨by decide, by decide⟩,
    insert_remove_round_trip _ _ "q1" ["q0"] [] "f1" (by decide)
      (by decide) (by decide) (by decide) (by decide) (by decide)⟩

theorem mem_addSet {x a : String} {l : List String} :
    x ∈ addSet a l ↔ x = a ∨ x ∈ l := by
  by_cases h : a ∈ l
  · simp only [addSet, if_pos h]
    constructor
    · exact Or.inr
    · rintro (rfl | hx)
      · exact h
      · exact hx
  · simp [addSet, if_neg h, List.mem_cons]

theorem addSet_nodup {a : String} {l : List String} (h : l.Nodup) :
    (addSet a l).Nodup := by
  by_cases ha : a ∈ l
  · simpa [addSet, if_pos ha] using h
  · simpa [addSet, if_neg ha, List.nodup_cons] using ⟨ha, h⟩

theorem count_addSet_le (a x : String) (l : List String) :
    (addSet a l).count x ≤ l.count x + (if x = a then 1 else 0) := by
  by_cases ha : a ∈ l
  · simp only [addSet, if_pos ha]
    exact Nat.le_add_right _ _
  · simp only [addSet, if_neg ha, List.count_cons, beq_iff_eq]
    rcases eq_or_ne a x with rfl | hne
    · simp
    · simp [hne, hne.symm]

theorem fh_fold_mem_ws (P : List String) :
    ∀ ws proc (x : String), x ∈ ws →
    x ∈ (P.foldl (fun (st : List String × List String) p =>
      if p ∈ st.2 then st else (addSet p st.1, p :: st.2)) (ws, proc)).1 := by
  induction P with
  | nil => intro ws proc x hx; exact hx
  | cons p ps ih =>
    intro ws proc x hx
    simp only [List.foldl]
    by_cases h : p ∈ proc
    · rw [if_pos h]; exact ih ws proc x hx
    · rw [if_neg h]; exact ih _ _ x (mem_addSet.mpr (Or.inr hx))

theorem fh_fold_mem_proc (P : List String) :
    ∀ ws proc (x : String), x ∈ proc →
    x ∈ (P.foldl (fun (st : List String × List String) p =>
      if p ∈ st.2 then st else (addSet p st.1, p :: st.2)) (ws, proc)).2 := by
  induction P with
  | nil => intro ws proc x hx; exact hx
  | cons p ps ih =>
    intro ws proc x hx
    simp only [List.foldl]
    by_cases h : p ∈ proc
    · rw [if_pos h]; exact ih ws proc x hx
    · rw [if_neg h]; exact ih _ _ x (List.mem_cons_of_mem _ hx)

theorem fh_fold_ws_src (P : List String) :
    ∀ ws proc (x : String),
    x ∈ (P.foldl (fun (st : List String × List String) p =>
      if p ∈ st.2 then st else (addSet p st.1, p :: st.2)) (ws, proc)).1 →
    x ∈ ws ∨ (x ∈ P ∧ x ∉ proc) := by
  induction P with
  | nil => intro ws proc x hx; exact Or.inl hx
  | cons p ps ih =>
    intro ws proc x hx
    simp only [List.foldl] at hx
    by_cases h : p ∈ proc
    · rw [if_pos h] at hx
      rcases ih ws proc x hx with h1 | ⟨h2, h3⟩
      · exact Or.inl h1
      · exact Or.inr ⟨List.mem_cons_of_mem _ h2, h3⟩
    · rw [if_neg h] at hx
      rcases ih _ _ x hx with h1 | ⟨h2, h3⟩
      · rcases mem_addSet.mp h1 with rfl | h4
        · exact Or.inr ⟨List.mem_cons_self _ _, h⟩
        · exact Or.inl h4
      · have h3b : x ∉ proc := fun hc => h3 (List.mem_cons_of_mem _ hc)
        exact Or.inr ⟨List.mem_cons_of_mem _ h2, h3b⟩

theorem fh_fold_proc_src (P : List String) :
    ∀ ws proc (x : String),
    x ∈ (P.foldl (fun (st : List String × List String) p =>
      if p ∈ st.2 then st else (addSet p st.1, p :: st.2)) (ws, proc)).2 →
    x ∈ proc ∨ x ∈ P := by
  induction P with
  | nil => intro ws proc x hx; exact Or.inl hx
  | cons p ps ih =>
    intro ws proc x hx
    simp only [List.foldl] at hx
    by_cases h : p ∈ proc
    · rw [if_pos h] at hx
      rcases ih ws proc x hx with h1 | h2
      · exact Or.inl h1
      · exact Or.inr (List.mem_cons_of_mem _ h2)
    · rw [if_neg h] at hx
      rcases ih _ _ x hx with h1 | h2
      · rcases List.mem_cons.mp h1 with rfl | h3
        · exact Or.inr (List.mem_cons_self _ _)
        · exact Or.inl h3
      · exact Or.inr (List.mem_cons_of_mem _ h2)

theorem fh_fold_new_in_ws (P : List String) :
    ∀ ws proc (x : String),
    x ∈ (P.foldl (fun (st : List String × List String) p =>
      if p ∈ st.2 then st else (addSet p st.1, p :: st.2)) (ws, proc)).2 →
    x ∉ proc →
    x ∈ (P.foldl (fun (st : List String × List String) p =>
      if p ∈ st.2 then st else (addSet p st.1, p :: st.2)) (ws, proc)).1 := by
  induction P with
  | nil => intro ws proc x hx hnp; exact absurd hx hnp
  | cons p ps ih =>
    intro ws proc x hx hnp
    simp only [List.foldl] at hx ⊢
    by_cases h : p ∈ proc
    · rw [if_pos h] at hx ⊢
      exact ih ws proc x hx hnp
    · rw [if_neg h] at hx ⊢
      by_cases hxp : x ∈ p :: proc
      · rcases List.mem_cons.mp hxp with rfl | h2
        · exact fh_fold_mem_ws ps _ _ x (mem_addSet.mpr (Or.inl rfl))
        · exact absurd h2 hnp
      · exact ih _ _ x hx hxp

theorem fh_fold_P_proc (P : List String) :
    ∀ ws proc (p : String), p ∈ P →
    p ∈ (P.foldl (fun (st : List String × List String) p =>
      if p ∈ st.2 then st else (addSet p st.1, p :: st.2)) (ws, proc)).2 := by
  induction P with
  | nil => intro ws proc p hp; cases hp
  | cons q qs ih =>
    intro ws proc p hp
    simp only [List.foldl]
    rcases List.mem_cons.mp hp with rfl | h2
    · by_cases h : p ∈ proc
      · rw [if_pos h]; exact fh_fold_mem_proc qs _ _ p h
      · rw [if_neg h]
        exact fh_fold_mem_proc qs _ _ p (List.mem_cons_self _ _)
    · by_cases h : q ∈ proc
      · rw [if_pos h]; exact ih ws proc p h2
      · rw [if_neg h]; exact ih _ _ p h2

theorem fh_fold_nodup (P : List String) :
    ∀ ws proc, ws.Nodup →
    (P.foldl (fun (st : List String × List String) p =>
      if p ∈ st.2 then st else (addSet p st.1, p :: st.2)) (ws, proc)).1.Nodup := by
  induction P with
  | nil => intro ws proc h; exact h
  | cons p ps ih =>
    intro ws proc h
    simp only [List.foldl]
    by_cases hp : p ∈ proc
    · rw [if_pos hp]; exact ih ws proc h
    · rw [if_neg hp]; exact ih _ _ (addSet_nodup h)


theorem count_addSet_ne (a x : String) (l : List String) (h : x ≠ a) :
    (addSet a l).count x = l.count x := by
  by_cases ha : a ∈ l
  · simp [addSet, if_pos ha]
  · simp only [addSet, if_neg ha, List.count_cons, beq_iff_eq]
    simp [h.symm]

theorem length_addSet (a : String) (l : List String) :
    (addSet a l).length = if a ∈ l then l.length else l.length + 1 := by
  by_cases ha : a ∈ l <;> simp [addSet, ha]

theorem fh_fold_P_cover (P : List String) :
    ∀ ws proc (p : String), p ∈ P →
    p ∈ (P.foldl (fun (st : List String × List String) p =>
      if p ∈ st.2 then st else (addSet p st.1, p :: st.2)) (ws, proc)).1 ∨
    p ∈ proc := by
  induction P with
  | nil => intro ws proc p hp; cases hp
  | cons q qs ih =>
    intro ws proc p hp
    simp only [List.foldl]
    rcases List.mem_cons.mp hp with rfl | h2
    · by_cases h : p ∈ proc
      · exact Or.inr h
      · rw [if_neg h]
        exact Or.inl (fh_fold_mem_ws qs _ _ p (mem_addSet.mpr (Or.inl rfl)))
    · by_cases h : q ∈ proc
      · rw [if_pos h]; exact ih ws proc p h2
      · rw [if_neg h]
        rcases ih (addSet q ws) (q :: proc) p h2 with h3 | h3
        · exact Or.inl h3
        · rcases List.mem_cons.mp h3 with rfl | h4
          · exact Or.inl
              (fh_fold_mem_ws qs _ _ p (mem_addSet.mpr (Or.inl rfl)))
          · exact Or.inr h4

theorem fh_fold_count (P : List String) :
    ∀ ws proc (x : String),
    (P.foldl (fun (st : List String × List String) p =>
      if p ∈ st.2 then st else (addSet p st.1, p :: st.2)) (ws, proc)).1.count x +
    (if x ∈ (P.foldl (fun (st : List String × List String) p =>
      if p ∈ st.2 then st else (addSet p st.1, p :: st.2)) (ws, proc)).2
      then 0 else 1) ≤
      ws.count x + (if x ∈ proc then 0 else 1) := by
  induction P with
  | nil => intro ws proc x; exact Nat.le_refl _
  | cons q qs ih =>
    intro ws proc x
    simp only [List.foldl]
    by_cases h : q ∈ proc
    · rw [if_pos h]; exact ih ws proc x
    · rw [if_neg h]
      refine (ih (addSet q ws) (q :: proc) x).trans ?_
      by_cases hx : x = q
      · subst hx
        have h1 := count_addSet_le x x ws
        simp at h1
        have h2 : (if x ∈ x :: proc then 0 else 1) = 0 := by
          simp [List.mem_cons]
        have h3 : (if x ∈ proc then 0 else 1) = 1 := by simp [h]
        simp only [h2, h3]
        omega
      · have h1 := count_addSet_ne q x ws hx
        have h2 : (x ∈ q :: proc) ↔ (x ∈ proc) := by
          simp [List.mem_cons, hx]
        rw [h1]
        by_cases h3 : x ∈ proc
        · simp [h3, h2.mpr h3]
        · have h4 : x ∉ q :: proc := fun hc => h3 (h2.mp hc)
          simp [h3, h4]

theorem filter_notmem_le (keys : List String) (p : String)
    (proc : List String) :
    (keys.filter (fun k => k ∉ p :: proc)).length ≤
      (keys.filter (fun k => k ∉ proc)).length := by
  induction keys with
  | nil => exact Nat.le_refl _
  | cons k ks ih =>
    simp only [List.filter_cons]
    by_cases h2 : k ∈ proc
    · have h1 : k ∈ p :: proc := List.mem_cons_of_mem _ h2
      rw [if_neg (by simp [h1]), if_neg (by simp [h2])]
      exact ih
    · by_cases h1 : k ∈ p :: proc
      · rw [if_neg (by simp [h1]), if_pos (by simp [h2])]
        simp only [List.length_cons]
        exact ih.trans (Nat.le_succ _)
      · rw [if_pos (by simp [h1]), if_pos (by simp [h2])]
        simp only [List.length_cons]
        exact Nat.succ_le_succ ih

theorem filter_notmem_lt (keys : List String) (p : String)
    (proc : List String) (hk : p ∈ keys) (hp : p ∉ proc) :
    (keys.filter (fun k => k ∉ p :: proc)).length <
      (keys.filter (fun k => k ∉ proc)).length := by
  induction keys with
  | nil => cases hk
  | cons k ks ih =>
    simp only [List.filter_cons]
    rcases List.mem_cons.mp hk with rfl | hk2
    · rw [if_neg (by simp : ¬ (decide (p ∉ p :: proc) = true)),
        if_pos (by simp [hp])]
      simp only [List.length_cons]
      exact Nat.lt_succ_of_le (filter_notmem_le ks p proc)
    · by_cases h2 : k ∈ proc
      · have h1 : k ∈ p :: proc := List.mem_cons_of_mem _ h2
        rw [if_neg (by simp [h1]), if_neg (by simp [h2])]
        exact ih hk2
      · by_cases h1 : k ∈ p :: proc
        · rw [if_neg (by simp [h1]), if_pos (by simp [h2])]
          simp only [List.length_cons]
          exact Nat.lt_succ_of_lt (ih hk2)
        · rw [if_pos (by simp [h1]), if_pos (by simp [h2])]
          simp only [List.length_cons]
          exact Nat.succ_lt_succ (ih hk2)

theorem fh_fold_measure (keys : List String) (P : List String) :
    ∀ ws proc, (∀ p ∈ P, p ∈ keys) →
    (P.foldl (fun (st : List String × List String) p =>
      if p ∈ st.2 then st else (addSet p st.1, p :: st.2)) (ws, proc)).1.length +
    (keys.filter (fun k => k ∉ (P.foldl
      (fun (st : List String × List String) p =>
      if p ∈ st.2 then st else (addSet p st.1, p :: st.2)) (ws, proc)).2)).length ≤
      ws.length + (keys.filter (fun k => k ∉ proc)).length := by
  induction P with
  | nil => intro ws proc _; exact Nat.le_refl _
  | cons q qs ih =>
    intro ws proc hP
    simp only [List.foldl]
    by_cases h : q ∈ proc
    · rw [if_pos h]
      exact ih ws proc (fun p hp => hP p (List.mem_cons_of_mem _ hp))
    · rw [if_neg h]
      refine (ih (addSet q ws) (q :: proc)
        (fun p hp => hP p (List.mem_cons_of_mem _ hp))).trans ?_
      have hql := length_addSet q ws
      by_cases hqw : q ∈ ws
      · rw [hql, if_pos hqw]
        have := filter_notmem_le keys q proc
        omega
      · rw [hql, if_neg hqw]
        have := filter_notmem_lt keys q proc (hP q (List.mem_cons_self _ _)) h
        omega


theorem lookup_none_of_not_mem {g : Graph} {k : String}
    (h : k ∉ keysG g) : lookupG g k = none := by
  induction g with
  | nil => rfl
  | cons e rest ih =>
    have h1 : ¬ (k = e.1 ∨ k ∈ keysG rest) := by
      simpa [keysG, List.mem_cons] using h
    push_neg at h1
    have he : ¬ (e.1 = k) := fun hc => h1.1 hc.symm
    simp only [lookupG, List.find?]
    rw [show (decide (e.1 = k)) = false by simpa using he]
    exact ih h1.2

theorem keysG_cons (e : String × RevNode) (rest : Graph) :
    keysG (e :: rest) = e.1 :: keysG rest := rfl

theorem mem_keys_exists_lookup {g : Graph} {k : String}
    (h : k ∈ keysG g) : ∃ n, lookupG g k = some n := by
  induction g with
  | nil => cases h
  | cons e rest ih =>
    rw [keysG_cons] at h
    rcases List.mem_cons.mp h with h1 | h1
    · refine ⟨e.2, ?_⟩
      simp only [lookupG, List.find?]
      rw [show (decide (e.1 = k)) = true by simpa using h1.symm]
      rfl
    · by_cases he : e.1 = k
      · refine ⟨e.2, ?_⟩
        simp only [lookupG, List.find?]
        rw [show (decide (e.1 = k)) = true by simpa using he]
        rfl
      · obtain ⟨n, hn⟩ := ih h1
        refine ⟨n, ?_⟩
        simp only [lookupG, List.find?]
        rw [show (decide (e.1 = k)) = false by simpa using he]
        exact hn

theorem lookup_mem {g : Graph} {r : String} {n : RevNode}
    (h : lookupG g r = some n) : (r, n) ∈ g := by
  induction g with
  | nil => cases h
  | cons e rest ih =>
    simp only [lookupG, List.find?] at h
    by_cases he : e.1 = r
    · rw [show (decide (e.1 = r)) = true by simpa using he] at h
      injection h with h2
      subst h2
      have : (r, e.2) = e := by
        rw [← he]
      rw [this]
      exact List.mem_cons_self _ _
    · rw [show (decide (e.1 = r)) = false by simpa using he] at h
      exact List.mem_cons_of_mem _ (ih h)

theorem parentsOf_eq {g : Graph} {r : String} {n : RevNode}
    (h : lookupG g r = some n) : parentsOf g r = n.parents := by
  simp [parentsOf, h]

theorem parentsOf_nil_of_not_mem {g : Graph} {k : String}
    (h : k ∉ keysG g) : parentsOf g k = [] := by
  simp [parentsOf, lookup_none_of_not_mem h]

theorem reach_mono {g g2 : Graph}
    (h : ∀ x, ∀ p ∈ parentsOf g x, p ∈ parentsOf g2 x) :
    ∀ {a b : String}, Reach g a b → Reach g2 a b := by
  intro a b hr
  induction hr with
  | refl a => exact Reach.refl a
  | step hp _ ih => exact Reach.step (h _ _ hp) ih

theorem reach_snoc {g : Graph} :
    ∀ {a b c : String}, Reach g a b → c ∈ parentsOf g b → Reach g a c := by
  intro a b c hr
  induction hr with
  | refl a => intro hc; exact Reach.step hc (Reach.refl c)
  | step hp _ ih => intro hc; exact Reach.step hp (ih hc)

theorem reach_covered {g : Graph} {ws proc heads : List String}
    (hchain : ∀ x ∈ proc, x ∉ ws →
      (parentsOf g x = [] → x ∈ heads) ∧ (∀ p ∈ parentsOf g x, p ∈ proc)) :
    ∀ {x k : String}, Reach g x k → x ∈ proc → parentsOf g k = [] →
    k ∈ heads ∨ ∃ w ∈ ws, Reach g w k := by
  intro x k hr
  induction hr with
  | refl a =>
    intro ha hk
    by_cases haw : a ∈ ws
    · exact Or.inr ⟨a, haw, Reach.refl a⟩
    · exact Or.inl ((hchain a ha haw).1 hk)
  | step hp hr2 ih =>
    rename_i a b c
    intro ha hk
    by_cases haw : a ∈ ws
    · exact Or.inr ⟨a, haw, Reach.step hp hr2⟩
    · exact ih ((hchain a ha haw).2 b hp) hk


theorem findHeadsAux_spec (g : Graph)
    (hclosed : ∀ e ∈ g, ∀ p ∈ e.2.parents, p ∈ keysG g) :
    ∀ (fuel : Nat) (ws proc heads vis : List String),
    FHInv g ws proc heads vis → fhMeasure g ws proc < fuel →
    ∃ hs vis2 proc2,
      findHeadsAux g fuel ws proc heads vis = some (hs, vis2) ∧
      FHInv g [] proc2 hs vis2 := by
  intro fuel
  induction fuel with
  | zero => intro ws proc heads vis _ hm; omega
  | succ fuel ih =>
    intro ws proc heads vis inv hm
    cases ws with
    | nil => exact ⟨heads, vis, proc, rfl, inv⟩
    | cons r rest =>
      have hrk : r ∈ keysG g := inv.wsKeys r (List.mem_cons_self _ _)
      obtain ⟨node, hnode⟩ := mem_keys_exists_lookup hrk
      have hpar : parentsOf g r = node.parents := parentsOf_eq hnode
      have hPk : ∀ p ∈ node.parents, p ∈ keysG g :=
        hclosed _ (lookup_mem hnode)
      have hrnotrest : r ∉ rest := (List.nodup_cons.mp inv.wsNodup).1
      have wsN : rest.Nodup := (List.nodup_cons.mp inv.wsNodup).2
      by_cases hemp : node.parents.isEmpty
      · -- pop a head
        have hpnil : node.parents = [] := by simpa using hemp
        have hrnoth : r ∉ heads :=
          fun hrh => inv.headsWs r hrh (List.mem_cons_self _ _)
        have inv2 : FHInv g rest (addSet r proc) (heads ++ [r])
            (vis ++ [r]) := by
          refine ⟨wsN, ?_, ?_, ?_, ?_, ?_, ?_, ?_, ?_, ?_⟩
          · exact fun x hx => inv.wsKeys x (List.mem_cons_of_mem _ hx)
          · intro x hx
            rcases mem_addSet.mp hx with rfl | hx2
            · exact hrk
            · exact inv.procKeys x hx2
          · intro h hh
            rcases List.mem_append.mp hh with hh2 | hh2
            · exact inv.headsSound h hh2
            · have : h = r := by simpa using hh2
              subst this
              exact ⟨hrk, by rw [hpar, hpnil]⟩
          · simp [List.nodup_append, inv.headsNodup, hrnoth]
          · intro h hh
            rcases List.mem_append.mp hh with hh2 | hh2
            · exact mem_addSet.mpr (Or.inr (inv.headsProc h hh2))
            · have : h = r := by simpa using hh2
              subst this
              exact mem_addSet.mpr (Or.inl rfl)
          · intro h hh
            rcases List.mem_append.mp hh with hh2 | hh2
            · exact fun hc =>
                inv.headsWs h hh2 (List.mem_cons_of_mem _ hc)
            · have : h = r := by simpa using hh2
              subst this
              exact hrnotrest
          · intro x hx hnx
            by_cases hxr : x = r
            · subst hxr
              constructor
              · intro _
                exact List.mem_append.mpr (Or.inr (by simp))
              · intro p hp
                rw [hpar, hpnil] at hp
                cases hp
            · rcases mem_addSet.mp hx with h1 | h1
              · exact absurd h1 hxr
              · have hxcr : x ∉ r :: rest := by
                  simp [List.mem_cons, hxr, hnx]
                have old := inv.procChain x h1 hxcr
                exact ⟨fun hpn => List.mem_append.mpr (Or.inl (old.1 hpn)),
                  fun p hp => mem_addSet.mpr (Or.inr (old.2 p hp))⟩
          · intro k hk hknil
            rcases inv.complete k hk hknil with h | ⟨w, hw, hr⟩
            · exact Or.inl (List.mem_append.mpr (Or.inl h))
            · rcases List.mem_cons.mp hw with rfl | hwrest
              · cases hr with
                | refl =>
                  exact Or.inl (List.mem_append.mpr (Or.inr (by simp)))
                | step hp hr2 =>
                  rw [hpar, hpnil] at hp
                  cases hp
              · exact Or.inr ⟨w, hwrest, hr⟩
          · intro x
            have hold := inv.countB x
            have hv : (vis ++ [r]).count x =
                vis.count x + (if x = r then 1 else 0) := by
              by_cases hxr : x = r <;>
                simp [List.count_append, List.count_cons, hxr]
            have hw2 : (r :: rest).count x =
                rest.count x + (if x = r then 1 else 0) := by
              by_cases hxr : x = r <;> simp [List.count_cons, hxr]
            have hi : (if x ∈ addSet r proc then 0 else 1) ≤
                (if x ∈ proc then 0 else 1) := by
              by_cases hp : x ∈ proc
              · simp [hp, mem_addSet.mpr (Or.inr hp)]
              · by_cases hq : x ∈ addSet r proc <;> simp [hp, hq]
            rw [hv]
            rw [hw2] at hold
            set t1 := (if x = r then 1 else 0) with ht1
            set t2 := (if x ∈ addSet r proc then 0 else 1) with ht2
            set t3 := (if x ∈ proc then 0 else 1) with ht3
            omega
        have hm2 : fhMeasure g rest (addSet r proc) < fuel := by
          have hle : ((keysG g).filter
              (fun k => k ∉ addSet r proc)).length ≤
              ((keysG g).filter (fun k => k ∉ proc)).length := by
            by_cases hp : r ∈ proc
            · simp [addSet, if_pos hp]
            · simp only [addSet, if_neg hp]
              exact filter_notmem_le (keysG g) r proc
          simp only [fhMeasure, List.length_cons] at hm ⊢
          omega
        obtain ⟨hs, vis2, proc2, hrun, hinv⟩ :=
          ih rest (addSet r proc) (heads ++ [r]) (vis ++ [r]) inv2 hm2
        refine ⟨hs, vis2, proc2, ?_, hinv⟩
        simp only [findHeadsAux]
        rw [hnode]
        simp only [hemp, if_true]
        exact hrun
      · -- expand through successors
        have hpne : node.parents ≠ [] := by simpa using hemp
        have F1 := fh_fold_mem_ws node.parents rest proc
        have F2 := fh_fold_mem_proc node.parents rest proc
        have F3 := fh_fold_ws_src node.parents rest proc
        have F4 := fh_fold_proc_src node.parents rest proc
        have F5 := fh_fold_new_in_ws node.parents rest proc
        have F6 := fh_fold_P_proc node.parents rest proc
        have F7 := fh_fold_P_cover node.parents rest proc
        have F8 := fh_fold_nodup node.parents rest proc
        have F9 := fh_fold_count node.parents rest proc
        have F10 := fh_fold_measure (keysG g) node.parents rest proc hPk
        set st := node.parents.foldl
          (fun (st : List String × List String) p =>
            if p ∈ st.2 then st else (addSet p st.1, p :: st.2))
          (rest, proc) with hst
        have chain2 : ∀ x ∈ st.2, x ∉ st.1 →
            (parentsOf g x = [] → x ∈ heads) ∧
            (∀ p ∈ parentsOf g x, p ∈ st.2) := by
          intro x hx hnx
          have hxproc : x ∈ proc := by
            rcases F4 x hx with h | h
            · exact h
            · by_cases hxp : x ∈ proc
              · exact hxp
              · exact absurd (F5 x hx hxp) hnx
          have hxrest : x ∉ rest := fun hc => hnx (F1 x hc)
          by_cases hxr : x = r
          · subst hxr
            constructor
            · intro hpn
              rw [hpar] at hpn
              exact absurd hpn hpne
            · intro p hp
              rw [hpar] at hp
              exact F6 p hp
          · have hxcr : x ∉ r :: rest := by
              simp [List.mem_cons, hxr, hxrest]
            have old := inv.procChain x hxproc hxcr
            exact ⟨old.1, fun p hp => F2 p (old.2 p hp)⟩
        have inv2 : FHInv g st.1 st.2 heads (vis ++ [r]) := by
          refine ⟨F8 wsN, ?_, ?_, inv.headsSound, inv.headsNodup,
            ?_, ?_, chain2, ?_, ?_⟩
          · intro x hx
            rcases F3 x hx with h | ⟨h, _⟩
            · exact inv.wsKeys x (List.mem_cons_of_mem _ h)
            · exact hPk x h
          · intro x hx
            rcases F4 x hx with h | h
            · exact inv.procKeys x h
            · exact hPk x h
          · exact fun h hh => F2 h (inv.headsProc h hh)
          · intro h hh hc
            rcases F3 h hc with h2 | ⟨_, h3⟩
            · exact inv.headsWs h hh (List.mem_cons_of_mem _ h2)
            · exact h3 (inv.headsProc h hh)
          · intro k hk hknil
            rcases inv.complete k hk hknil with h | ⟨w, hw, hr⟩
            · exact Or.inl h
            · rcases List.mem_cons.mp hw with rfl | hwrest
              · cases hr with
                | refl =>
                  rw [hpar] at hknil
                  exact absurd hknil hpne
                | step hp hr2 =>
                  rw [hpar] at hp
                  rcases F7 _ hp with hbw | hbp
                  · exact Or.inr ⟨_, hbw, hr2⟩
                  · exact reach_covered chain2 hr2 (F2 _ hbp) hknil
              · exact Or.inr ⟨w, F1 w hwrest, hr⟩
          · intro x
            have hold := inv.countB x
            have hf := F9 x
            have hv : (vis ++ [r]).count x =
                vis.count x + (if x = r then 1 else 0) := by
              by_cases hxr : x = r <;>
                simp [List.count_append, List.count_cons, hxr]
            have hw2 : (r :: rest).count x =
                rest.count x + (if x = r then 1 else 0) := by
              by_cases hxr : x = r <;> simp [List.count_cons, hxr]
            rw [hv]
            rw [hw2] at hold
            set t1 := (if x = r then 1 else 0) with ht1
            set t2 := (if x ∈ st.2 then 0 else 1) with ht2
            set t3 := (if x ∈ proc then 0 else 1) with ht3
            omega
        have hm2 : fhMeasure g st.1 st.2 < fuel := by
          simp only [fhMeasure, List.length_cons] at hm ⊢
          omega
        obtain ⟨hs, vis2, proc2, hrun, hinv⟩ :=
          ih st.1 st.2 heads (vis ++ [r]) inv2 hm2
        refine ⟨hs, vis2, proc2, ?_, hinv⟩
        simp only [findHeadsAux]
        rw [hnode]
        simp only [hemp, if_false, Bool.false_eq_true]
        rw [← hst]
        exact hrun


theorem find_heads_spec (g : Graph) (root : String) (node : RevNode)
    (wf : WFGraph g root) (hroot : lookupG g root = some node) :
    ∃ hs vis, find_heads g node = some (hs, vis) ∧
      (∀ k, k ∈ hs ↔ k ∈ keysG g ∧ parentsOf g k = []) ∧
      hs.Nodup ∧ (∀ x, vis.count x ≤ 2) := by
  have hrev : node.revision = root := wf.keyed _ (lookup_mem hroot)
  have hpar : parentsOf g root = node.parents := parentsOf_eq hroot
  have hPk : ∀ p ∈ node.parents, p ∈ keysG g :=
    wf.closed _ (lookup_mem hroot)
  have hfilter : ((keysG g).filter
      (fun k => k ∉ ([] : List String))).length = g.length := by
    rw [List.filter_eq_self.mpr (by intro a _; simp)]
    simp [keysG]
  by_cases hie : node.parents.dedup.isEmpty
  · -- the start node has no successors: it is the lone entry
    have hpnil : node.parents = [] := by
      have : node.parents.dedup = [] := by simpa using hie
      simpa using this
    have invInit : FHInv g [node.revision] [] [] [] := by
      refine ⟨?_, ?_, ?_, ?_, ?_, ?_, ?_, ?_, ?_, ?_⟩
      · simp
      · intro x hx
        have : x = node.revision := by simpa using hx
        subst this
        rw [hrev]
        exact wf.rootMem
      · intro x hx; cases hx
      · intro h hh; cases hh
      · exact List.nodup_nil
      · intro h hh; cases hh
      · intro h hh; cases hh
      · intro x hx; cases hx
      · intro k hk hknil
        refine Or.inr ⟨node.revision, by simp, ?_⟩
        rw [hrev]
        exact wf.reachAll k hk
      · intro x
        have h1 : ([] : List String).count x = 0 := rfl
        have h2 : [node.revision].count x ≤ 1 := by
          by_cases hx : x = node.revision <;>
            simp [List.count_cons, hx]
        set t := (if x ∈ ([] : List String) then 0 else 1) with ht
        have h3 : t ≤ 1 := by rw [ht]; by_cases hx : x ∈ ([] : List String) <;> simp [hx]
        omega
    have hmInit : fhMeasure g [node.revision] [] <
        g.length + [node.revision].length + 1 := by
      simp only [fhMeasure, hfilter]
      simp only [List.length_singleton]
      omega
    obtain ⟨hs, vis2, proc2, hrun, hinv⟩ :=
      findHeadsAux_spec g wf.closed _ [node.revision] [] [] [] invInit hmInit
    refine ⟨hs, vis2, ?_, ?_, hinv.headsNodup, ?_⟩
    · simp only [find_heads, hie, if_true]
      exact hrun
    · intro k
      constructor
      · exact hinv.headsSound k
      · intro ⟨hk, hknil⟩
        rcases hinv.complete k hk hknil with h | ⟨w, hw, _⟩
        · exact h
        · cases hw
    · intro x
      have := hinv.countB x
      have h1 : ([] : List String).count x = 0 := rfl
      set t := (if x ∈ proc2 then 0 else 1) with ht
      omega
  · -- the start node's successor set is the initial frontier
    have hpne : node.parents ≠ [] := by
      intro hc
      rw [hc] at hie
      simp at hie
    have invInit : FHInv g node.parents.dedup [] [] [] := by
      refine ⟨List.nodup_dedup _, ?_, ?_, ?_, ?_, ?_, ?_, ?_, ?_, ?_⟩
      · intro x hx
        exact hPk x (List.mem_dedup.mp hx)
      · intro x hx; cases hx
      · intro h hh; cases hh
      · exact List.nodup_nil
      · intro h hh; cases hh
      · intro h hh; cases hh
      · intro x hx; cases hx
      · intro k hk hknil
        have hr := wf.reachAll k hk
        cases hr with
        | refl =>
          rw [hpar] at hknil
          exact absurd hknil hpne
        | step hp hr2 =>
          rw [hpar] at hp
          exact Or.inr ⟨_, List.mem_dedup.mpr hp, hr2⟩
      · intro x
        have h2 : node.parents.dedup.count x ≤ 1 :=
          List.nodup_iff_count_le_one.mp (List.nodup_dedup _) x
        set t := (if x ∈ ([] : List String) then 0 else 1) with ht
        have h3 : t ≤ 1 := by
          rw [ht]
          by_cases hx : x ∈ ([] : List String) <;> simp [hx]
        have h1 : ([] : List String).count x = 0 := rfl
        omega
    have hmInit : fhMeasure g node.parents.dedup [] <
        g.length + node.parents.dedup.length + 1 := by
      simp only [fhMeasure, hfilter]
      omega
    obtain ⟨hs, vis2, proc2, hrun, hinv⟩ :=
      findHeadsAux_spec g wf.closed _ node.parents.dedup [] [] []
        invInit hmInit
    refine ⟨hs, vis2, ?_, ?_, hinv.headsNodup, ?_⟩
    · simp only [find_heads, hie, if_false, Bool.false_eq_true]
      exact hrun
    · intro k
      constructor
      · exact hinv.headsSound k
      · intro ⟨hk, hknil⟩
        rcases hinv.complete k hk hknil with h | ⟨w, hw, _⟩
        · exact h
        · cases hw
    · intro x
      have := hinv.countB x
      have h1 : ([] : List String).count x = 0 := rfl
      set t := (if x ∈ proc2 then 0 else 1) with ht
      omega


/-- C7 counterexample: on the graph `exG` (root `r0`, successor edges
`r0→a0`, `r0→b0`, `b0→a0`, `a0→c0`), the head finder pops `a0` twice —
`a0` sits in the initial frontier, which is never recorded in the
processed set, and is re-inserted when `b0` is expanded — refuting
"each node is visited at most once".  (Python's `set.pop` order is
unspecified; the embedding fixes one admissible order.) -/
theorem head_finder_visits_twice :
    find_heads_from exG "r0" =
      some (["c0"], ["a0", "c0", "b0", "a0"]) ∧
    (["a0", "c0", "b0", "a0"] : List String).count "a0" = 2 :=
  ⟨by decide, by decide⟩

/-- C7 amended: on a well-formed revision graph (duplicate-free keys,
closed successor edges, every node reachable from the unique root), the
head finder terminates, visits each node at most twice — once for nodes
recorded in the processed set when inserted, with one extra possible
visit for initial-frontier nodes, which are not pre-recorded — and
collects exactly the nodes with empty successor sets, without
duplicates. -/
theorem find_heads_terminates_exact (g : Graph) (root : String)
    (node : RevNode) (wf : WFGraph g root)
    (hroot : lookupG g root = some node) :
    ∃ hs vis, find_heads g node = some (hs, vis) ∧
      (∀ k, k ∈ hs ↔ k ∈ keysG g ∧ parentsOf g k = []) ∧
      hs.Nodup ∧ (∀ x, vis.count x ≤ 2) :=
  find_heads_spec g root node wf hroot

/-- Witness for C7 amended on the two-node chain `exW`. -/
theorem find_heads_terminates_exact_witness :
    ∃ hs vis,
      find_heads exW (⟨"w0", ["w1"], [], "f0"⟩ : RevNode) =
        some (hs, vis) ∧
      (∀ k, k ∈ hs ↔ k ∈ keysG exW ∧ parentsOf exW k = []) ∧
      hs.Nodup ∧ (∀ x, vis.count x ≤ 2) :=
  find_heads_terminates_exact exW "w0" ⟨"w0", ["w1"], [], "f0"⟩
    ⟨by decide, by decide, by decide, by decide, by
      intro k hk
      have h2 : k = "w0" ∨ k = "w1" := by
        simpa [exW, keysG] using hk
      rcases h2 with rfl | rfl
      · exact Reach.refl _
      · exact Reach.step (by decide) (Reach.refl _)⟩
    (by decide)

theorem lookupG_map_iter_addPar (hs2 : List String) (r : String) :
    ∀ (g : Graph) (k : String),
    lookupG (g.map (fun e => (e.1,
      (fun n => { n with parents := n.parents ++ [r] })^[hs2.count e.1] e.2))) k =
    (lookupG g k).map
      (fun n => (fun m => { m with parents := m.parents ++ [r] })^[hs2.count k] n) := by
  intro g
  induction g with
  | nil => intro k; rfl
  | cons e rest ih =>
    intro k
    simp only [List.map_cons, lookupG, List.find?]
    by_cases he : e.1 = k
    · rw [show (decide (e.1 = k)) = true by simpa using he]
      simp only [Option.map_some]
      rw [he]
      rfl
    · rw [show (decide (e.1 = k)) = false by simpa using he]
      exact ih k

theorem lookupG_append_left {A : Graph} {k : String} {n : RevNode}
    (h : lookupG A k = some n) :
    ∀ B : Graph, lookupG (A ++ B) k = some n := by
  intro B
  induction A with
  | nil => cases h
  | cons e rest ih =>
    simp only [lookupG, List.find?, List.cons_append] at h ⊢
    by_cases he : e.1 = k
    · rw [show (decide (e.1 = k)) = true by simpa using he] at h ⊢
      exact h
    · rw [show (decide (e.1 = k)) = false by simpa using he] at h ⊢
      exact ih h


theorem lookupG_after_insert_old (g : Graph) (r fp : String)
    (hs2 : List String) (k : String) (n : RevNode)
    (hkn : lookupG g k = some n) :
    lookupG (g.map (fun e => (e.1,
      (fun n => { n with parents := n.parents ++ [r] })^[hs2.count e.1] e.2)) ++
      [(r, (⟨r, [], hs2, fp⟩ : RevNode))]) k =
    some { n with parents := n.parents ++ List.replicate (hs2.count k) r } := by
  have h1 : lookupG (g.map (fun e => (e.1,
      (fun n => { n with parents := n.parents ++ [r] })^[hs2.count e.1]
        e.2))) k =
      some { n with parents := n.parents ++ List.replicate (hs2.count k) r } := by
    rw [lookupG_map_iter_addPar hs2 r g k, hkn, Option.map_some']
    rw [iterate_addParent]
  exact lookupG_append_left h1 _

theorem lookupG_after_insert_new (g : Graph) (r fp : String)
    (hs2 : List String) (hfresh : r ∉ keysG g) :
    lookupG (g.map (fun e => (e.1,
      (fun n => { n with parents := n.parents ++ [r] })^[hs2.count e.1] e.2)) ++
      [(r, (⟨r, [], hs2, fp⟩ : RevNode))]) r =
    some (⟨r, [], hs2, fp⟩ : RevNode) := by
  apply lookupG_append_fresh
  rw [keysG_map_pres g (fun e => (e.1,
    (fun n => { n with parents := n.parents ++ [r] })^[hs2.count e.1] e.2))
    (fun e => rfl)]
  exact hfresh

theorem keysG_after_insert (g : Graph) (r fp : String)
    (hs2 : List String) :
    keysG (g.map (fun e => (e.1,
      (fun n => { n with parents := n.parents ++ [r] })^[hs2.count e.1] e.2)) ++
      [(r, (⟨r, [], hs2, fp⟩ : RevNode))]) = keysG g ++ [r] := by
  simp only [keysG, List.map_append]
  congr 1
  exact keysG_map_pres g _ (fun e => rfl)

theorem parentsOf_after_insert_mono (g : Graph) (r fp : String)
    (hs2 : List String) (x : String) :
    ∀ p ∈ parentsOf g x,
    p ∈ parentsOf (g.map (fun e => (e.1,
      (fun n => { n with parents := n.parents ++ [r] })^[hs2.count e.1] e.2)) ++
      [(r, (⟨r, [], hs2, fp⟩ : RevNode))]) x := by
  intro p hp
  cases hl : lookupG g x with
  | none => simp [parentsOf, hl] at hp
  | some n =>
    rw [parentsOf_eq hl] at hp
    rw [parentsOf_eq (lookupG_after_insert_old g r fp hs2 x n hl)]
    exact List.mem_append_left _ hp

theorem wf_after_insert (g : Graph) (root r fp : String)
    (hs2 : List String) (wf : WFGraph g root) (hfresh : r ∉ keysG g)
    (hsub : ∀ k ∈ hs2, k ∈ keysG g) (hsne : hs2 ≠ []) :
    WFGraph (g.map (fun e => (e.1,
      (fun n => { n with parents := n.parents ++ [r] })^[hs2.count e.1] e.2)) ++
      [(r, (⟨r, [], hs2, fp⟩ : RevNode))]) root := by
  refine ⟨?_, ?_, ?_, ?_, ?_⟩
  · rw [keysG_after_insert]
    refine List.Nodup.append wf.keysNodup (by simp) ?_
    intro a ha hb
    have hab : a = r := by simpa using hb
    exact hfresh (hab ▸ ha)
  · intro e he
    rcases List.mem_append.mp he with h | h
    · obtain ⟨e0, he0, he1⟩ := List.mem_map.mp h
      rw [← he1]
      simp only [iterate_addParent]
      exact wf.keyed e0 he0
    · have he2 : e = (r, (⟨r, [], hs2, fp⟩ : RevNode)) := by simpa using h
      rw [he2]
  · intro e he p hp
    rw [keysG_after_insert]
    rcases List.mem_append.mp he with h | h
    · obtain ⟨e0, he0, he1⟩ := List.mem_map.mp h
      rw [← he1] at hp
      simp only [iterate_addParent] at hp
      rcases List.mem_append.mp hp with h2 | h2
      · exact List.mem_append_left _ (wf.closed e0 he0 p h2)
      · have hpr : p = r := List.eq_of_mem_replicate h2
        rw [hpr]
        exact List.mem_append_right _ (by simp)
    · have he2 : e = (r, (⟨r, [], hs2, fp⟩ : RevNode)) := by simpa using h
      rw [he2] at hp
      cases hp
  · rw [keysG_after_insert]
    exact List.mem_append_left _ wf.rootMem
  · intro k hk
    rw [keysG_after_insert] at hk
    rcases List.mem_append.mp hk with h | h
    · exact reach_mono (parentsOf_after_insert_mono g r fp hs2)
        (wf.reachAll k h)
    · have hkr : k = r := by simpa using h
      rw [hkr]
      obtain ⟨h0, hh0⟩ := List.exists_mem_of_ne_nil hs2 hsne
      have hh0k : h0 ∈ keysG g := hsub h0 hh0
      have hr1 := reach_mono (parentsOf_after_insert_mono g r fp hs2)
        (wf.reachAll h0 hh0k)
      obtain ⟨n0, hn0⟩ := mem_keys_exists_lookup hh0k
      refine reach_snoc hr1 ?_
      rw [parentsOf_eq (lookupG_after_insert_old g r fp hs2 h0 n0 hn0)]
      refine List.mem_append_right _ ?_
      refine List.mem_replicate.mpr ⟨?_, rfl⟩
      have := List.count_pos_iff.mpr hh0
      omega

theorem heads_after_insert (g : Graph) (r fp : String)
    (hs2 : List String) (hfresh : r ∉ keysG g)
    (hheads : ∀ k, k ∈ hs2 ↔ k ∈ keysG g ∧ parentsOf g k = []) :
    ∀ k, (k ∈ keysG (g.map (fun e => (e.1,
      (fun n => { n with parents := n.parents ++ [r] })^[hs2.count e.1] e.2)) ++
      [(r, (⟨r, [], hs2, fp⟩ : RevNode))]) ∧
      parentsOf (g.map (fun e => (e.1,
        (fun n => { n with parents := n.parents ++ [r] })^[hs2.count e.1] e.2)) ++
        [(r, (⟨r, [], hs2, fp⟩ : RevNode))]) k = []) ↔ k = r := by
  intro k
  constructor
  · rintro ⟨hk, hknil⟩
    by_contra hkr
    rw [keysG_after_insert] at hk
    rcases List.mem_append.mp hk with h | h
    · obtain ⟨n, hn⟩ := mem_keys_exists_lookup h
      rw [parentsOf_eq (lookupG_after_insert_old g r fp hs2 k n hn)]
        at hknil
      rcases List.append_eq_nil.mp hknil with ⟨hp1, hp2⟩
      have hk_in : k ∈ hs2 := (hheads k).mpr
        ⟨h, by rw [parentsOf_eq hn]; exact hp1⟩
      have hcz : hs2.count k = 0 := by
        have hlr := List.length_replicate (hs2.count k) r
        rw [hp2] at hlr
        simpa using hlr.symm
      have := List.count_pos_iff.mpr hk_in
      omega
    · exact hkr (by simpa using h)
  · intro hkr2
    rw [hkr2]
    refine ⟨?_, parentsOf_eq (lookupG_after_insert_new g r fp hs2 hfresh)⟩
    rw [keysG_after_insert]
    exact List.mem_append_right _ (by simp)


/-- C8: inserting the merge node synthesized by `merge_heads`
(`children` = the merged heads, `parents` = empty) into a well-formed
graph whose head finder returned those heads makes a re-run of the head
finder on the resulting graph return exactly one head: the newly
synthesized node. -/
theorem merge_insert_sole_head (g rmap : Graph) (root : String)
    (node : RevNode) (wf : WFGraph g root)
    (hroot : lookupG g root = some node)
    (r fp : String) (hfresh : r ∉ keysG g)
    (hs vis : List String) (hfh : find_heads g node = some (hs, vis))
    (hlen : 2 ≤ hs.length) :
    ∃ g2 m2 vis2, insert_node g rmap r hs [] fp = .ok (g2, m2) ∧
      find_heads_from g2 root = some ([r], vis2) := by
  obtain ⟨hsA, visA, hfhA, hiffA, hndA, _⟩ :=
    find_heads_spec g root node wf hroot
  rw [hfh] at hfhA
  injection hfhA with h3
  have h4 : hs = hsA := congrArg Prod.fst h3
  subst h4
  have hsub : ∀ k ∈ hs, k ∈ keysG g := fun k hk => ((hiffA k).mp hk).1
  have hrhs : r ∉ hs := fun hc => hfresh (hsub r hc)
  have hsne : hs ≠ [] := by
    intro hc
    rw [hc] at hlen
    simp at hlen
  have hins := insert_node_eq g rmap r hs [] fp hsub
    (by intro p hp; cases hp)
  simp only [List.count_nil, Function.iterate_zero, id_eq] at hins
  have hsplit2 : (g ++ [(r, (⟨r, [], hs, fp⟩ : RevNode))]).map
      (fun e => (e.1,
        (fun n => { n with parents := n.parents ++ [r] })^[hs.count e.1] e.2)) =
      g.map (fun e => (e.1,
        (fun n => { n with parents := n.parents ++ [r] })^[hs.count e.1] e.2)) ++
      [(r, (⟨r, [], hs, fp⟩ : RevNode))] := by
    rw [List.map_append]
    congr 1
    simp [List.count_eq_zero.mpr hrhs]
  rw [hsplit2] at hins
  have wf2 := wf_after_insert g root r fp hs wf hfresh hsub hsne
  have hrootmem2 : root ∈ keysG (g.map (fun e => (e.1,
      (fun n => { n with parents := n.parents ++ [r] })^[hs.count e.1] e.2)) ++
      [(r, (⟨r, [], hs, fp⟩ : RevNode))]) := by
    rw [keysG_after_insert]
    exact List.mem_append_left _ wf.rootMem
  obtain ⟨node2, hnode2⟩ := mem_keys_exists_lookup hrootmem2
  obtain ⟨hs2, vis2, hrun2, hiff2, hnd2, _⟩ :=
    find_heads_spec _ root node2 wf2 hnode2
  have hmemR : ∀ k, k ∈ hs2 ↔ k = r :=
    fun k => (hiff2 k).trans
      (heads_after_insert g r fp hs hfresh hiffA k)
  have hsingle : hs2 = [r] := by
    cases hs2 with
    | nil =>
      have hcon := (hmemR r).mpr rfl
      cases hcon
    | cons a t =>
      have ha : a = r := (hmemR a).mp (List.mem_cons_self _ _)
      subst ha
      cases t with
      | nil => rfl
      | cons b t2 =>
        have hb : b = a := (hmemR b).mp (by simp)
        subst hb
        simp [List.nodup_cons] at hnd2
  refine ⟨_, _, vis2, hins, ?_⟩
  simp only [find_heads_from, hnode2]
  rw [hrun2, hsingle]


/-- Witness for C8 on the fork `exM` with heads `h1` and `h2` merged by
the fresh node `mg`. -/
theorem merge_insert_sole_head_witness :
    ∃ g2 m2 vis2,
      insert_node exM exM "mg" ["h1", "h2"] [] "fg" = .ok (g2, m2) ∧
      find_heads_from g2 "m0" = some (["mg"], vis2) :=
  merge_insert_sole_head exM exM "m0" ⟨"m0", ["h1", "h2"], [], "fm"⟩
    ⟨by decide, by decide, by decide, by decide, by
      intro k hk
      have h2 : k = "m0" ∨ k = "h1" ∨ k = "h2" := by
        simpa [exM, keysG] using hk
      rcases h2 with rfl | rfl | rfl
      · exact Reach.refl _
      · exact Reach.step (by decide) (Reach.refl _)
      · exact Reach.step (by decide) (Reach.refl _)⟩
    (by decide) "mg" "fg" (by decide) ["h1", "h2"] ["h1", "h2"]
    (by decide) (by decide)

end AlembicBot
